import Mathlib

/-!
Shallow embedding of the sigsolve board legality model and backtracking solver
(`src/sigsolve/board.py` and `src/sigsolve/solver.py`), together with theorems
checking the natural-language specification against the code.

Elements are modelled as `String` (the Python code uses plain strings), tiles
by their `number` (their index in `Board.tiles`), and the per-tile mutable
state by `TileData`.  A raised Python `AttributeError` is modelled as a
`some msg` error component returned next to the board state the exception
leaves behind.
-/

namespace Sigsolve

/-- Mutable per-tile state: `_element`, `_exists` and the cached tri-state
legality `_legal` (`none` = unknown) of `TileBase`/`Tile` in `board.py`.
A fresh `Tile` starts with no element, not existing, and unknown legality. -/
structure TileData where
  element : Option String
  exists_ : Bool
  legalCache : Option Bool
  deriving DecidableEq, Repr

/-- Initial state of a `Tile` as constructed by `Tile.__init__`. -/
def TileData.init : TileData := ⟨none, false, none⟩

/-- Python truthiness of an element value: `None` and the empty string are
falsy, every other string is truthy. -/
def elemTruthy (e : Option String) : Bool :=
  match e with
  | none => false
  | some s => s ≠ ""

/-- The adjacency structure built by `Board.__init__`: `n` tiles, each with a
list of neighbor slots in fixed clockwise order starting from the left;
`none` stands for the shared `DummyTile` sentinel (an off-board cell, which
never exists and never has an element). -/
structure Geom where
  n : Nat
  nbrs : Nat → List (Option Nat)

/-- Well-formedness of the adjacency data as produced by `Board.__init__`:
every real tile has exactly 6 neighbor slots, on-board neighbor references
stay in range, no tile is its own neighbor, and adjacency is symmetric. -/
def Geom.WF (G : Geom) : Prop :=
  ∀ t, t < G.n →
    (G.nbrs t).length = 6 ∧
    ∀ j, some j ∈ G.nbrs t → j < G.n ∧ j ≠ t ∧ some t ∈ G.nbrs j

/-- Board state: the tiles' mutable data plus the `catalog` dictionary mapping
an element name to the set of existing tiles holding it.  The association
list keeps dict key presence observable: `CatalogDictionary.__missing__`
answers a missing key with an immutable empty tuple instead of creating an
entry, and `set.discard` leaves emptied-out entries in place. -/
structure BoardState where
  tiles : Nat → TileData
  catalog : List (String × Finset Nat)

/-- A freshly constructed `Board` before any vision population: every tile in
its initial state and an empty catalog. -/
def BoardState.init : BoardState := ⟨fun _ => TileData.init, []⟩

/-- Overwrite the data of one tile. -/
def setTile (st : BoardState) (t : Nat) (d : TileData) : BoardState :=
  { st with tiles := fun u => if u = t then d else st.tiles u }

/-- Catalog lookup (`self.catalog[key]` for a present key, `None` when the
key is missing and `__missing__` would answer with an empty tuple). -/
def catFind (c : List (String × Finset Nat)) (e : String) : Option (Finset Nat) :=
  (c.find? (fun p => p.1 == e)).map (fun p => p.2)

/-- Replace the set stored under an existing key. -/
def catSet (c : List (String × Finset Nat)) (e : String) (s : Finset Nat) :
    List (String × Finset Nat) :=
  c.map (fun p => if p.1 == e then (p.1, s) else p)

/-- `self.catalog.setdefault(element, set()).add(tile)`. -/
def catAddTile (c : List (String × Finset Nat)) (e : String) (t : Nat) :
    List (String × Finset Nat) :=
  match catFind c e with
  | some s => catSet c e (insert t s)
  | none => c ++ [(e, {t})]

/-- The guarded discard of `Board.tile_exists_changed`:
`if tile.element in self.catalog: self.catalog[tile.element].discard(tile)`. -/
def catDiscardIfKey (c : List (String × Finset Nat)) (e : String) (t : Nat) :
    List (String × Finset Nat) :=
  match catFind c e with
  | some s => catSet c e (s.erase t)
  | none => c

/-- `Board.remaining(element)`: `len(self.catalog[element])`, where a missing
key yields the empty tuple. -/
def remaining (st : BoardState) (e : String) : Nat :=
  ((catFind st.catalog e).getD ∅).card

/-- `Tile.expire_legality(onlyif)` with a boolean `onlyif`: forget the cached
legality exactly when the cached value is `onlyif` (`self._legal is onlyif`). -/
def expireLegality (td : TileData) (onlyif : Bool) : TileData :=
  if td.legalCache == some onlyif then { td with legalCache := none } else td

/-- The expiry loop of `Board.tile_exists_changed`: for every element-bearing
neighbor (`tile.real_neighbors()` filters on element truthiness) expire a
cached legality equal to the tile's new existence value. -/
def expireNeighbors (G : Geom) (st : BoardState) (t : Nat) (onlyif : Bool) :
    BoardState :=
  ((G.nbrs t).filterMap id).foldl
    (fun s j =>
      if elemTruthy (s.tiles j).element then
        setTile s j (expireLegality (s.tiles j) onlyif)
      else s)
    st

/-- The catalog-update half of `Board.tile_exists_changed`: only a tile with
a truthy element touches the catalog; a gained tile is added via `setdefault`,
a lost one is discarded only when the key is present. -/
def existsCatalogUpdate (st : BoardState) (t : Nat) (newv : Bool) : BoardState :=
  if elemTruthy (st.tiles t).element then
    match (st.tiles t).element with
    | some e =>
      if newv then { st with catalog := catAddTile st.catalog e t }
      else { st with catalog := catDiscardIfKey st.catalog e t }
    | none => st
  else st

/-- `Board.tile_exists_changed`: update the catalog entry of the flipped tile
and run the neighbor legality expiry loop. -/
def tileExistsChanged (G : Geom) (st : BoardState) (t : Nat) (old newv : Bool) :
    BoardState :=
  if old == newv then st
  else expireNeighbors G (existsCatalogUpdate st t newv) t newv

/-- `TileBase._setexists` (the `exists` setter): no-op when the value is
unchanged, `AttributeError` when making an element-less tile existant (raised
before any mutation), otherwise flip the flag and notify the board. -/
def setExists (G : Geom) (st : BoardState) (t : Nat) (value : Bool) :
    Option String × BoardState :=
  if value == (st.tiles t).exists_ then (none, st)
  else if value && (st.tiles t).element == none then
    (some "AttributeError: Cannot make a tile with no element existant", st)
  else
    (none,
     tileExistsChanged G (setTile st t { st.tiles t with exists_ := value }) t
       (st.tiles t).exists_ value)

/-- The second half of `Board.tile_element_changed`: add the tile under the
new element when it is not `None` and the tile exists
(`self.catalog.setdefault(new, set()).add(tile)`). -/
def elemAddNew (st : BoardState) (t : Nat) (newv : Option String) : BoardState :=
  match newv with
  | some m =>
    if (st.tiles t).exists_ then { st with catalog := catAddTile st.catalog m t }
    else st
  | none => st

/-- `Board.tile_element_changed`: discard the tile from the old element's
catalog entry — `self.catalog[old].discard(tile)` raises `AttributeError`
when the key is missing, because `__missing__` answers with a tuple that has
no `discard` — then add it under the new element when the tile exists. -/
def tileElementChanged (st : BoardState) (t : Nat) (old newv : Option String) :
    Option String × BoardState :=
  if old == newv then (none, st)
  else
    match old with
    | some o =>
      match catFind st.catalog o with
      | none => (some "AttributeError: tuple object has no attribute discard", st)
      | some s =>
        (none, elemAddNew { st with catalog := catSet st.catalog o (s.erase t) } t newv)
    | none => (none, elemAddNew st t newv)

/-- `TileBase._setelement` (the `element` setter): no-op when unchanged;
records the new element, notifies the board (which may raise, leaving the
element already mutated), and when the new value is falsy forces
`exists = False`. -/
def setElement (G : Geom) (st : BoardState) (t : Nat) (value : Option String) :
    Option String × BoardState :=
  if value == (st.tiles t).element then (none, st)
  else
    match tileElementChanged (setTile st t { st.tiles t with element := value }) t
        (st.tiles t).element value with
    | (some e, st2) => (some e, st2)
    | (none, st2) =>
      if elemTruthy value then (none, st2)
      else setExists G st2 t false

/-- `Tile.MINADJACENT`. -/
def MINADJACENT : Nat := 3

/-- Existence of a neighbor slot: the dummy sentinel never exists. -/
def nbExists (st : BoardState) (r : Option Nat) : Bool :=
  match r with
  | none => false
  | some j => (st.tiles j).exists_

/-- Membership of a neighbor slot in the hypothetical removal set (the dummy
sentinel is never a member). -/
def nbRemoved (rem : Finset Nat) (r : Option Nat) : Bool :=
  match r with
  | none => false
  | some j => j ∈ rem

/-- The `(not neighbor.exists, legality_predicted)` pairs produced by `_gen`
inside `Tile.predict_legality`: all neighbors in clockwise order followed by
the cached replay of at most `MINADJACENT - 1` leading predicted-gap results,
which handles runs that wrap around past the last neighbor. -/
def genStream (l : List (Bool × Bool)) : List (Bool × Bool) :=
  l ++ (l.takeWhile (fun r => r.2)).take (MINADJACENT - 1)

/-- The scanning loop of `Tile.predict_legality`: walks the generated pairs
tracking the actual and the predicted run of consecutive gaps.  Returns
`(early, result)` where `early` is the early `return True` on an actual run
of length `MINADJACENT` (which also caches `_legal = True`) and `result` is
the predicted answer accumulated otherwise. -/
def scanGo : List (Bool × Bool) → Nat → Nat → Bool → Bool × Bool
  | [], _, _, res => (false, res)
  | (a, p) :: rest, ar, pr, res =>
    let ar' := if a then ar + 1 else 0
    if a ∧ MINADJACENT ≤ ar' then (true, true)
    else
      let pr' := if p then pr + 1 else 0
      let res' := if p ∧ MINADJACENT ≤ pr' then true else res
      scanGo rest ar' pr' res'

/-- Python truthiness of the `removed` argument: `None` and the empty set are
falsy. -/
def removedFalsy (removed : Option (Finset Nat)) : Bool :=
  match removed with
  | none => true
  | some s => s = ∅

/-- `Tile.predict_legality(removed)`: answers `False` for empty tiles without
touching the cache, consults the cached tri-state (`True` always short
circuits; `False` short circuits only for a falsy `removed`), and otherwise
scans the neighbors, returning the answer next to the board after the cache
write. -/
def predictLegality (G : Geom) (st : BoardState) (t : Nat)
    (removed : Option (Finset Nat)) : Bool × BoardState :=
  let td := st.tiles t
  if !td.exists_ || td.element == none then (false, st)
  else if td.legalCache == some true then (true, st)
  else if removedFalsy removed && td.legalCache == some false then (false, st)
  else
    let rem := removed.getD ∅
    let pairs := (G.nbrs t).map (fun r =>
      (!nbExists st r, !nbExists st r || nbRemoved rem r))
    match scanGo (genStream pairs) 0 0 false with
    | (true, _) => (true, setTile st t { td with legalCache := some true })
    | (false, res) => (res, setTile st t { td with legalCache := some false })

/-- The `Tile.legal` property: `self.exists and self.element is not None and
self.predict_legality()`, short-circuiting so that the cache is untouched
when one of the first two conjuncts fails. -/
def legalM (G : Geom) (st : BoardState) (t : Nat) : Bool × BoardState :=
  if (st.tiles t).exists_ && !((st.tiles t).element == none) then
    predictLegality G st t none
  else (false, st)

/-- Gap pattern of a tile: for each neighbor slot in clockwise order, whether
that slot is nonexistent (off-board or currently not existing). -/
def gaps (G : Geom) (st : BoardState) (t : Nat) : List Bool :=
  (G.nbrs t).map (fun r => !nbExists st r)

/-- Spec-side reading of the legality rule: some `MINADJACENT` consecutive
entries of the circular gap pattern are all gaps, where the run may wrap
around from the last neighbor back to the first. -/
def circRun (g : List Bool) : Bool :=
  (List.range g.length).any (fun i =>
    g.getD i false && g.getD ((i + 1) % g.length) false &&
      g.getD ((i + 2) % g.length) false)

/-- The specification's definition of tile legality: the tile exists, has an
element, and at least three consecutive neighbors (clockwise, wrapping) are
each nonexistent. -/
def specLegal (G : Geom) (st : BoardState) (t : Nat) : Bool :=
  (st.tiles t).exists_ && !((st.tiles t).element == none) && circRun (gaps G st t)

/-- Cache coherence: for every on-board tile holding an element, a cached
tri-state legality value agrees with the circular-run computation on the
current existence pattern.  This holds for a freshly populated board (all
caches unknown) and is preserved by every mutation the solver performs. -/
def cacheOk (G : Geom) (st : BoardState) : Prop :=
  ∀ t, t < G.n → (st.tiles t).element ≠ none →
    ∀ b, (st.tiles t).legalCache = some b → circRun (gaps G st t) = b

/-- No tile carries the empty string as its element (Python's truthiness
makes `''` behave inconsistently; vision classification never produces it). -/
def noEmptyElem (G : Geom) (st : BoardState) : Prop :=
  ∀ t, t < G.n → (st.tiles t).element ≠ some ""

theorem scanGo_actual_spec :
    ∀ a b c d e f : Bool,
      scanGo (genStream [(a, a), (b, b), (c, c), (d, d), (e, e), (f, f)]) 0 0 false
        = (circRun [a, b, c, d, e, f], circRun [a, b, c, d, e, f]) := by
  decide

theorem circRun_mono :
    ∀ a b c d e f a' b' c' d' e' f' : Bool,
      a ≤ a' → b ≤ b' → c ≤ c' → d ≤ d' → e ≤ e' → f ≤ f' →
      circRun [a, b, c, d, e, f] ≤ circRun [a', b', c', d', e', f'] := by
  decide

theorem exists_six {α : Type _} {l : List α} (h : l.length = 6) :
    ∃ a b c d e f, l = [a, b, c, d, e, f] := by
  rcases l with _ | ⟨a, _ | ⟨b, _ | ⟨c, _ | ⟨d, _ | ⟨e, _ | ⟨f, _ | ⟨g, l⟩⟩⟩⟩⟩⟩⟩ <;>
    simp_all

theorem setTile_tiles (st : BoardState) (t : Nat) (d : TileData) (u : Nat) :
    (setTile st t d).tiles u = if u = t then d else st.tiles u := rfl

theorem setTile_catalog (st : BoardState) (t : Nat) (d : TileData) :
    (setTile st t d).catalog = st.catalog := rfl

theorem nbRemoved_empty (r : Option Nat) : nbRemoved ∅ r = false := by
  cases r <;> simp [nbRemoved]

theorem predict_pairs_eq (G : Geom) (st : BoardState) (t : Nat) :
    ((G.nbrs t).map fun r =>
        (!nbExists st r, !nbExists st r || nbRemoved (∅ : Finset Nat) r))
      = (gaps G st t).map fun g => (g, g) := by
  have h : ∀ l : List (Option Nat),
      (l.map fun r => (!nbExists st r, !nbExists st r || nbRemoved (∅ : Finset Nat) r))
        = (l.map fun r => !nbExists st r).map fun g => (g, g) := by
    intro l
    induction l with
    | nil => rfl
    | cons r l ih => simp [ih, nbRemoved_empty]
  exact h _

theorem gaps_length (G : Geom) (st : BoardState) (t : Nat) :
    (gaps G st t).length = (G.nbrs t).length := by
  simp [gaps]

/-- Exact behavior of `Tile.predict_legality()` with no removal set, given a
coherent cache at the queried tile: the returned value is the spec's
legality, and the state is unchanged except that an unknown cache of an
existing element-bearing tile is filled in with the (coherent) answer. -/
theorem predictLegality_none_spec (G : Geom) (st : BoardState) (t : Nat)
    (h6 : (G.nbrs t).length = 6)
    (hc : (st.tiles t).element ≠ none → ∀ b, (st.tiles t).legalCache = some b →
      circRun (gaps G st t) = b) :
    predictLegality G st t none
      = (specLegal G st t,
         if (st.tiles t).exists_ = true ∧ (st.tiles t).element ≠ none ∧
            (st.tiles t).legalCache = none then
           setTile st t { st.tiles t with legalCache := some (circRun (gaps G st t)) }
         else st) := by
  obtain ⟨a, b, c, d, e, f, hg⟩ :=
    exists_six (l := gaps G st t) (by rw [gaps_length, h6])
  by_cases hex : (st.tiles t).exists_ = true
  · by_cases hel : (st.tiles t).element = none
    · simp [predictLegality, specLegal, hex, hel]
    · rcases hcache : (st.tiles t).legalCache with _ | bv
      · have hpairs := predict_pairs_eq G st t
        rw [hg] at hpairs
        have hscan := scanGo_actual_spec a b c d e f
        simp only [predictLegality, hex, hel, hcache, Bool.not_true,
          Bool.false_or, removedFalsy, Option.getD_none, beq_iff_eq,
          if_neg (fun h : (st.tiles t).element = none => hel h)]
        simp only [hpairs, List.map_cons, List.map_nil, hscan]
        rw [specLegal, hg]
        rcases hcr : circRun [a, b, c, d, e, f] with _ | _ <;>
          simp [hex, hel, hcache, beq_iff_eq]
      · have hco := hc hel bv hcache
        rw [hg] at hco
        rcases bv with _ | _
        · simp [predictLegality, specLegal, hex, hel, hcache, removedFalsy,
            beq_iff_eq, hg, hco]
        · simp [predictLegality, specLegal, hex, hel, hcache, removedFalsy,
            beq_iff_eq, hg, hco]
  · simp [predictLegality, specLegal, Bool.not_eq_true _ ▸ hex,
      Bool.eq_false_iff.mpr, hex]

theorem gaps_eq_of_exists_eq (G : Geom) {st st' : BoardState}
    (h : ∀ u, (st'.tiles u).exists_ = (st.tiles u).exists_) (t : Nat) :
    gaps G st' t = gaps G st t := by
  unfold gaps
  congr 1
  funext r
  cases r <;> simp [nbExists, h]

theorem predictLegality_snd_shape (G : Geom) (st : BoardState) (t : Nat)
    (removed : Option (Finset Nat)) :
    (predictLegality G st t removed).2 = st ∨
      ∃ b, (predictLegality G st t removed).2
        = setTile st t { st.tiles t with legalCache := some b } := by
  simp only [predictLegality]
  split
  · exact Or.inl rfl
  split
  · exact Or.inl rfl
  split
  · exact Or.inl rfl
  split
  · exact Or.inr ⟨true, rfl⟩
  · exact Or.inr ⟨false, rfl⟩

theorem predictLegality_obs (G : Geom) (st : BoardState) (t : Nat)
    (removed : Option (Finset Nat)) :
    (∀ u, ((predictLegality G st t removed).2.tiles u).element = (st.tiles u).element) ∧
    (∀ u, ((predictLegality G st t removed).2.tiles u).exists_ = (st.tiles u).exists_) ∧
    (predictLegality G st t removed).2.catalog = st.catalog := by
  rcases predictLegality_snd_shape G st t removed with h | ⟨b, h⟩ <;> rw [h]
  · exact ⟨fun _ => rfl, fun _ => rfl, rfl⟩
  · refine ⟨fun u => ?_, fun u => ?_, rfl⟩ <;>
      · rw [setTile_tiles]
        split <;> simp_all

theorem legalM_snd_shape (G : Geom) (st : BoardState) (t : Nat) :
    (legalM G st t).2 = st ∨
      ∃ b, (legalM G st t).2
        = setTile st t { st.tiles t with legalCache := some b } := by
  unfold legalM
  split
  · exact predictLegality_snd_shape G st t none
  · exact Or.inl rfl

theorem legalM_obs (G : Geom) (st : BoardState) (t : Nat) :
    (∀ u, ((legalM G st t).2.tiles u).element = (st.tiles u).element) ∧
    (∀ u, ((legalM G st t).2.tiles u).exists_ = (st.tiles u).exists_) ∧
    (legalM G st t).2.catalog = st.catalog := by
  rcases legalM_snd_shape G st t with h | ⟨b, h⟩ <;> rw [h]
  · exact ⟨fun _ => rfl, fun _ => rfl, rfl⟩
  · refine ⟨fun u => ?_, fun u => ?_, rfl⟩ <;>
      · rw [setTile_tiles]
        split <;> simp_all

theorem cacheOk_setCache (G : Geom) (st : BoardState) (t : Nat)
    (hc : cacheOk G st) :
    cacheOk G (setTile st t
      { st.tiles t with legalCache := some (circRun (gaps G st t)) }) := by
  intro u hu hel b hb
  have hgaps : ∀ v, gaps G (setTile st t
      { st.tiles t with legalCache := some (circRun (gaps G st t)) }) v = gaps G st v :=
    fun v => gaps_eq_of_exists_eq G
      (fun w => by rw [setTile_tiles]; split <;> simp_all) v
  rw [hgaps]
  rw [setTile_tiles] at hb hel
  by_cases hut : u = t
  · rw [if_pos hut] at hb hel
    simp only at hb
    cases hb
    exact hut ▸ rfl
  · rw [if_neg hut] at hb hel
    exact hc u hu hel b hb

/-- Exact behavior of the `Tile.legal` property on a tile with a coherent
cache: it returns the spec's answer, and at most fills in an unknown cache
entry with the coherent value. -/
theorem legalM_spec (G : Geom) (st : BoardState) (t : Nat)
    (h6 : (G.nbrs t).length = 6)
    (hc : (st.tiles t).element ≠ none → ∀ b, (st.tiles t).legalCache = some b →
      circRun (gaps G st t) = b) :
    legalM G st t
      = (specLegal G st t,
         if (st.tiles t).exists_ = true ∧ (st.tiles t).element ≠ none ∧
            (st.tiles t).legalCache = none then
           setTile st t { st.tiles t with legalCache := some (circRun (gaps G st t)) }
         else st) := by
  by_cases hex : (st.tiles t).exists_ = true
  · by_cases hel : (st.tiles t).element = none
    · simp [legalM, specLegal, hex, hel, beq_iff_eq]
    · rw [legalM, if_pos (by simp [hex, hel, beq_iff_eq])]
      exact predictLegality_none_spec G st t h6 hc
  · have hex' : (st.tiles t).exists_ = false := by simpa using hex
    simp [legalM, specLegal, hex']

/-- C1.  The legality query `Tile.legal` (via `Tile.predict_legality` with no
hypothetical removal set) answers `true` exactly when the tile exists, has a
non-None element, and at least `MINADJACENT = 3` consecutive neighbors in the
tile's fixed clockwise neighbor order — the run may wrap around from the
sixth neighbor back to the first — are each nonexistent; on a cache-coherent
board the cached tri-state value never changes this answer, and the query
leaves the cache coherent. -/
theorem legal_iff_three_consecutive_gaps (G : Geom) (st : BoardState) (t : Nat)
    (hWF : G.WF) (ht : t < G.n) (hc : cacheOk G st) :
    (legalM G st t).1 = specLegal G st t ∧ cacheOk G (legalM G st t).2 := by
  have h6 : (G.nbrs t).length = 6 := (hWF t ht).1
  have hspec := legalM_spec G st t h6 (fun hel b hb => hc t ht hel b hb)
  constructor
  · rw [hspec]
  · rw [hspec]
    dsimp only
    split
    · exact cacheOk_setCache G st t hc
    · exact hc

/-- Executable well-formedness check for a geometry. -/
def Geom.wfB (G : Geom) : Bool :=
  (List.range G.n).all fun t =>
    ((G.nbrs t).length == 6) &&
    (G.nbrs t).all fun r =>
      match r with
      | none => true
      | some j => decide (j < G.n) && decide (j ≠ t) && decide (some t ∈ G.nbrs j)

theorem Geom.wf_of_wfB (G : Geom) (h : G.wfB = true) : G.WF := by
  intro t ht
  rw [Geom.wfB, List.all_eq_true] at h
  have ht' := h t (List.mem_range.mpr ht)
  rw [Bool.and_eq_true, List.all_eq_true] at ht'
  refine ⟨by simpa using ht'.1, fun j hj => ?_⟩
  have := ht'.2 (some j) hj
  simp only [Bool.and_eq_true, decide_eq_true_eq] at this
  exact ⟨this.1.1, this.1.2, this.2⟩

/-- Executable cache-coherence check. -/
def cacheOkB (G : Geom) (st : BoardState) : Bool :=
  (List.range G.n).all fun t =>
    ((st.tiles t).element == none) ||
    (match (st.tiles t).legalCache with
     | none => true
     | some b => circRun (gaps G st t) == b)

theorem cacheOk_of_cacheOkB (G : Geom) (st : BoardState) (h : cacheOkB G st = true) :
    cacheOk G st := by
  intro t ht hel b hb
  rw [cacheOkB, List.all_eq_true] at h
  have := h t (List.mem_range.mpr ht)
  rw [Bool.or_eq_true] at this
  rcases this with h1 | h1
  · exact absurd (by simpa using h1) hel
  · rw [hb] at h1
    simpa using h1

/-- Hex board construction of `Board.__init__`: the board diameter. -/
def hexDiameter (radius : Nat) : Nat := 2 * radius - 1

/-- Grid positions `(row, column)` of the real tiles in creation order (row
by row, left to right), using the padded `rows` indexing of `Board.__init__`:
real rows are `1..diameter`, real columns `1..diameter`, with a sentinel
border around them.  Tile number `k` is the `k`-th entry. -/
def hexPositions (radius : Nat) : List (Nat × Nat) :=
  let diameter := hexDiameter radius
  (List.range diameter).flatMap fun y =>
    let count := diameter - ((radius : Int) - (y + 1)).natAbs
    let start := (diameter - count) / 2
    (List.range count).map fun i => (y + 1, start + i + 1)

/-- The tile number stored at a padded grid cell, `none` for sentinel cells. -/
def hexCell (radius : Nat) (gy gx : Nat) : Option Nat :=
  (hexPositions radius).findIdx? (fun p => p == (gy, gx))

/-- Clockwise neighbor list of tile `k`, from `Board.__init__`: left, upper
left, upper right, right, lower right, lower left, with the odd/even row
offset `altrow = -((y+1) % 2)`. -/
def hexNbrs (radius : Nat) (k : Nat) : List (Option Nat) :=
  match (hexPositions radius)[k]? with
  | none => []
  | some (gy, gx) =>
    let xa := if gy % 2 = 1 then gx else gx - 1
    [hexCell radius gy (gx - 1),
     hexCell radius (gy - 1) xa,
     hexCell radius (gy - 1) (xa + 1),
     hexCell radius gy (gx + 1),
     hexCell radius (gy + 1) (xa + 1),
     hexCell radius (gy + 1) xa]

/-- The adjacency graph of `Board.__init__` for a given radius. -/
def hexGeom (radius : Nat) : Geom := ⟨(hexPositions radius).length, hexNbrs radius⟩

/-- The default radius-6 board (91 tiles). -/
def hexBoard : Geom := hexGeom 6

/-- Populate a freshly constructed board the way `main.play_round` does: set
each listed tile's element and mark it existant; every other tile keeps
element `None` and `exists = False` (a no-op pair of assignments). -/
def populate (G : Geom) (l : List (Nat × String)) : BoardState :=
  l.foldl (fun st p => (setExists G (setElement G st p.1 (some p.2)).2 p.1 true).2)
    BoardState.init

/-- A board holding a single fire tile at tile 0. -/
def fireBoard : BoardState := populate hexBoard [(0, "fire")]

theorem hexBoard_n : hexBoard.n = 91 := by decide

theorem hexBoard_wf : hexBoard.WF := Geom.wf_of_wfB _ (by decide)

/-- The body of the expiry loop over neighbor indices. -/
def expireStep (b : Bool) (s : BoardState) (j : Nat) : BoardState :=
  if elemTruthy (s.tiles j).element then setTile s j (expireLegality (s.tiles j) b)
  else s

theorem expireNeighbors_eq_fold (G : Geom) (st : BoardState) (t : Nat) (b : Bool) :
    expireNeighbors G st t b = ((G.nbrs t).filterMap id).foldl (expireStep b) st := rfl

theorem expireStep_element (b : Bool) (s : BoardState) (j u : Nat) :
    ((expireStep b s j).tiles u).element = (s.tiles u).element := by
  unfold expireStep expireLegality
  split <;> [skip; rfl]
  rw [setTile_tiles]
  split <;> [skip; rfl]
  split <;> simp_all

theorem expireStep_exists (b : Bool) (s : BoardState) (j u : Nat) :
    ((expireStep b s j).tiles u).exists_ = (s.tiles u).exists_ := by
  unfold expireStep expireLegality
  split <;> [skip; rfl]
  rw [setTile_tiles]
  split <;> [skip; rfl]
  split <;> simp_all

theorem expireStep_catalog (b : Bool) (s : BoardState) (j : Nat) :
    (expireStep b s j).catalog = s.catalog := by
  unfold expireStep expireLegality
  split <;> [skip; rfl]
  split <;> rfl

theorem expireFold_element (b : Bool) (l : List Nat) (st : BoardState) (u : Nat) :
    ((l.foldl (expireStep b) st).tiles u).element = (st.tiles u).element := by
  induction l generalizing st with
  | nil => rfl
  | cons j l ih => rw [List.foldl_cons, ih, expireStep_element]

theorem expireFold_exists (b : Bool) (l : List Nat) (st : BoardState) (u : Nat) :
    ((l.foldl (expireStep b) st).tiles u).exists_ = (st.tiles u).exists_ := by
  induction l generalizing st with
  | nil => rfl
  | cons j l ih => rw [List.foldl_cons, ih, expireStep_exists]

theorem expireFold_catalog (b : Bool) (l : List Nat) (st : BoardState) :
    (l.foldl (expireStep b) st).catalog = st.catalog := by
  induction l generalizing st with
  | nil => rfl
  | cons j l ih => rw [List.foldl_cons, ih, expireStep_catalog]

theorem expireStep_cache_self (b : Bool) (s : BoardState) (j : Nat) :
    ((expireStep b s j).tiles j).legalCache
      = if elemTruthy (s.tiles j).element = true ∧ (s.tiles j).legalCache = some b
        then none else (s.tiles j).legalCache := by
  unfold expireStep expireLegality
  by_cases htr : elemTruthy (s.tiles j).element = true
  · rw [if_pos htr]
    by_cases hcb : (s.tiles j).legalCache = some b
    · rw [if_pos (by simpa using hcb)]
      simp [setTile_tiles, htr, hcb]
    · rw [if_neg (by simpa using hcb)]
      simp [setTile_tiles, htr, hcb]
  · rw [if_neg htr]
    simp [htr]

theorem expireStep_cache_other (b : Bool) (s : BoardState) (j u : Nat)
    (h : u ≠ j) : ((expireStep b s j).tiles u).legalCache = (s.tiles u).legalCache := by
  unfold expireStep
  split <;> [skip; rfl]
  rw [setTile_tiles, if_neg h]

theorem expireFold_cache (b : Bool) (l : List Nat) (st : BoardState) (u : Nat) :
    ((l.foldl (expireStep b) st).tiles u).legalCache
      = if u ∈ l ∧ elemTruthy (st.tiles u).element = true ∧
            (st.tiles u).legalCache = some b then none
        else (st.tiles u).legalCache := by
  induction l generalizing st with
  | nil => simp
  | cons j l ih =>
    rw [List.foldl_cons, ih, expireStep_element]
    by_cases huj : u = j
    · subst huj
      rw [expireStep_cache_self]
      by_cases htr : elemTruthy (st.tiles u).element = true
      · by_cases hcb : (st.tiles u).legalCache = some b
        · simp [htr, hcb]
        · simp [htr, hcb]
      · simp [htr]
    · rw [expireStep_cache_other b st j u huj]
      by_cases hu : u ∈ l <;> simp [hu, huj]

theorem existsCatalogUpdate_tiles (st : BoardState) (t : Nat) (newv : Bool) :
    (existsCatalogUpdate st t newv).tiles = st.tiles := by
  unfold existsCatalogUpdate
  split <;> [skip; rfl]
  split <;> [split <;> rfl; rfl]

theorem tileExistsChanged_tiles (G : Geom) (st : BoardState) (t : Nat)
    (old newv : Bool) (u : Nat) :
    ((tileExistsChanged G st t old newv).tiles u).element = (st.tiles u).element ∧
    ((tileExistsChanged G st t old newv).tiles u).exists_ = (st.tiles u).exists_ := by
  unfold tileExistsChanged
  split
  · exact ⟨rfl, rfl⟩
  · rw [expireNeighbors_eq_fold]
    constructor
    · rw [expireFold_element, existsCatalogUpdate_tiles]
    · rw [expireFold_exists, existsCatalogUpdate_tiles]

theorem tileExistsChanged_cache (G : Geom) (st : BoardState) (t : Nat)
    (old newv : Bool) (hne : (old == newv) = false) (u : Nat) :
    ((tileExistsChanged G st t old newv).tiles u).legalCache
      = if u ∈ (G.nbrs t).filterMap id ∧ elemTruthy (st.tiles u).element = true ∧
            (st.tiles u).legalCache = some newv then none
        else (st.tiles u).legalCache := by
  unfold tileExistsChanged
  rw [if_neg (by simp_all), expireNeighbors_eq_fold, expireFold_cache,
    existsCatalogUpdate_tiles]

theorem setExists_noop (G : Geom) (st : BoardState) (t : Nat) (v : Bool)
    (h : v = (st.tiles t).exists_) : setExists G st t v = (none, st) := by
  simp [setExists, h]

theorem setExists_false_fst (G : Geom) (st : BoardState) (t : Nat) :
    (setExists G st t false).1 = none := by
  unfold setExists
  split <;> simp

theorem setExists_ok_element (G : Geom) (st : BoardState) (t : Nat) (v : Bool)
    (st' : BoardState) (h : setExists G st t v = (none, st')) (u : Nat) :
    (st'.tiles u).element = (st.tiles u).element := by
  unfold setExists at h
  split at h
  · cases h; rfl
  · split at h
    · cases h
    · cases h
      rw [(tileExistsChanged_tiles G _ t _ v u).1, setTile_tiles]
      split <;> simp_all

theorem setExists_ok_exists (G : Geom) (st : BoardState) (t : Nat) (v : Bool)
    (st' : BoardState) (h : setExists G st t v = (none, st')) (u : Nat) :
    (st'.tiles u).exists_ = if u = t then v else (st.tiles u).exists_ := by
  unfold setExists at h
  split at h
  · cases h
    next hv =>
      rw [beq_iff_eq] at hv
      split <;> simp_all
  · split at h
    · cases h
    · cases h
      rw [(tileExistsChanged_tiles G _ t _ v u).2, setTile_tiles]
      split <;> rfl

theorem setExists_ok_cache (G : Geom) (st : BoardState) (t : Nat) (v : Bool)
    (st' : BoardState) (h : setExists G st t v = (none, st'))
    (hch : v ≠ (st.tiles t).exists_) (u : Nat) :
    (st'.tiles u).legalCache
      = if u ∈ (G.nbrs t).filterMap id ∧ elemTruthy (st.tiles u).element = true ∧
            (st.tiles u).legalCache = some v then none
        else (st.tiles u).legalCache := by
  unfold setExists at h
  rw [if_neg (by simpa using hch)] at h
  split at h
  · cases h
  · cases h
    rw [tileExistsChanged_cache G _ t _ v (by simp [beq_iff_eq]; exact Ne.symm hch) u]
    have he : ((setTile st t { st.tiles t with exists_ := v }).tiles u).element
        = (st.tiles u).element := by
      rw [setTile_tiles]
      split <;> simp_all
    have hca : ((setTile st t { st.tiles t with exists_ := v }).tiles u).legalCache
        = (st.tiles u).legalCache := by
      rw [setTile_tiles]
      split <;> simp_all
    rw [he, hca]

theorem elemTruthy_iff (e : Option String) :
    elemTruthy e = true ↔ e ≠ none ∧ e ≠ some "" := by
  cases e with
  | none => simp [elemTruthy]
  | some s => simp [elemTruthy]

theorem gaps_congr_mem (G : Geom) {st st' : BoardState} (t : Nat)
    (h : ∀ r ∈ G.nbrs t, nbExists st' r = nbExists st r) :
    gaps G st' t = gaps G st t := by
  unfold gaps
  exact List.map_congr_left (fun r hr => by rw [h r hr])

theorem circRun_board_mono (G : Geom) (stL stH : BoardState) (t : Nat)
    (h6 : (G.nbrs t).length = 6)
    (h : ∀ r ∈ G.nbrs t, nbExists stL r ≤ nbExists stH r) :
    circRun (gaps G stH t) ≤ circRun (gaps G stL t) := by
  obtain ⟨r0, r1, r2, r3, r4, r5, hr⟩ := exists_six h6
  have hm : ∀ r ∈ G.nbrs t, (!nbExists stH r) ≤ (!nbExists stL r) := by
    intro r hrm
    have := h r hrm
    revert this
    cases nbExists stL r <;> cases nbExists stH r <;> intro hle <;> simp_all
  unfold gaps
  rw [hr]
  simp only [List.map_cons, List.map_nil]
  exact circRun_mono _ _ _ _ _ _ _ _ _ _ _ _
    (hm r0 (by rw [hr]; simp)) (hm r1 (by rw [hr]; simp))
    (hm r2 (by rw [hr]; simp)) (hm r3 (by rw [hr]; simp))
    (hm r4 (by rw [hr]; simp)) (hm r5 (by rw [hr]; simp))

theorem setExists_noEmptyElem (G : Geom) {st st' : BoardState} {t : Nat}
    {v : Bool} (hNE : noEmptyElem G st) (h : setExists G st t v = (none, st')) :
    noEmptyElem G st' := by
  intro u hu
  rw [setExists_ok_element G st t v st' h u]
  exact hNE u hu

/-- Coherence of the legality cache is preserved by any existence flip: a
cached value matching the new existence is expired on all element-bearing
neighbors, and a surviving cached value stays correct by monotonicity of the
circular-run rule in the set of gaps. -/
theorem setExists_cacheOk (G : Geom) {st st' : BoardState} (t : Nat) (v : Bool)
    (hWF : G.WF) (hNE : noEmptyElem G st) (hC : cacheOk G st)
    (h : setExists G st t v = (none, st')) : cacheOk G st' := by
  by_cases hch : v = (st.tiles t).exists_
  · rw [setExists_noop G st t v hch] at h
    cases h
    exact hC
  · intro u hu hel b hb
    have hel0 : (st.tiles u).element ≠ none := by
      rw [← setExists_ok_element G st t v st' h u]
      exact hel
    have hcacheu := setExists_ok_cache G st t v st' h hch u
    rw [hb] at hcacheu
    have hcu : (st.tiles u).legalCache = some b ∧
        ¬(u ∈ (G.nbrs t).filterMap id ∧ elemTruthy (st.tiles u).element = true ∧
          (st.tiles u).legalCache = some v) := by
      by_cases hcond : u ∈ (G.nbrs t).filterMap id ∧
          elemTruthy (st.tiles u).element = true ∧ (st.tiles u).legalCache = some v
      · rw [if_pos hcond] at hcacheu
        cases hcacheu
      · rw [if_neg hcond] at hcacheu
        exact ⟨hcacheu.symm, hcond⟩
    have hold : circRun (gaps G st u) = b := hC u hu hel0 b hcu.1
    have hex' : ∀ w, (st'.tiles w).exists_ = if w = t then v else (st.tiles w).exists_ :=
      setExists_ok_exists G st t v st' h
    by_cases hn : some t ∈ G.nbrs u
    · -- the flipped tile is a neighbor of u, so u was in the expiry loop
      have hWFu := (hWF u hu).2 t hn
      have humem : u ∈ (G.nbrs t).filterMap id := by
        rw [List.mem_filterMap]
        exact ⟨some u, hWFu.2.2, rfl⟩
      have htruthy : elemTruthy (st.tiles u).element = true :=
        (elemTruthy_iff _).mpr ⟨hel0, hNE u hu⟩
      have hbv : b ≠ v := by
        intro hbv
        exact hcu.2 ⟨humem, htruthy, hbv ▸ hcu.1⟩
      cases v with
      | true =>
        have hb' : b = false := by
          cases b
          · rfl
          · exact absurd rfl hbv
        subst hb'
        have hle : ∀ r ∈ G.nbrs u, nbExists st r ≤ nbExists st' r := by
          intro r hrm
          cases r with
          | none => simp [nbExists]
          | some j =>
            simp only [nbExists, hex' j]
            split
            · exact Bool.le_true _
            · exact le_refl _
        have := circRun_board_mono G st st' u (hWF u hu).1 hle
        rw [hold] at this
        cases hcr : circRun (gaps G st' u)
        · rfl
        · rw [hcr] at this
          exact absurd this (by decide)
      | false =>
        have hb' : b = true := by
          cases b
          · exact absurd rfl hbv
          · rfl
        subst hb'
        have hle : ∀ r ∈ G.nbrs u, nbExists st' r ≤ nbExists st r := by
          intro r hrm
          cases r with
          | none => simp [nbExists]
          | some j =>
            simp only [nbExists, hex' j]
            split
            · exact Bool.false_le _
            · exact le_refl _
        have := circRun_board_mono G st' st u (hWF u hu).1 hle
        rw [hold] at this
        cases hcr : circRun (gaps G st' u)
        · rw [hcr] at this
          exact absurd this (by decide)
        · rfl
    · -- the flipped tile is not adjacent to u: gaps of u are untouched
      have hgaps : gaps G st' u = gaps G st u := by
        apply gaps_congr_mem
        intro r hrm
        cases r with
        | none => rfl
        | some j =>
          have hjt : j ≠ t := fun hjt => hn (hjt ▸ hrm)
          simp [nbExists, hex' j, hjt]
      rw [hgaps]
      exact hold

theorem legalM_fst_spec (G : Geom) (st : BoardState) (t : Nat)
    (h6 : (G.nbrs t).length = 6)
    (hc : (st.tiles t).element ≠ none → ∀ b, (st.tiles t).legalCache = some b →
      circRun (gaps G st t) = b) :
    (legalM G st t).1 = specLegal G st t := by
  rw [legalM_spec G st t h6 hc]

theorem legalM_snd_cacheOk (G : Geom) (st : BoardState) (t : Nat)
    (h6 : (G.nbrs t).length = 6) (ht : t < G.n) (hC : cacheOk G st) :
    cacheOk G (legalM G st t).2 := by
  rw [legalM_spec G st t h6 (fun hel b hb => hC t ht hel b hb)]
  dsimp only
  split
  · exact cacheOk_setCache G st t hC
  · exact hC

theorem legalM_snd_noEmptyElem (G : Geom) (st : BoardState) (t : Nat)
    (hNE : noEmptyElem G st) : noEmptyElem G (legalM G st t).2 := by
  intro u hu
  rw [(legalM_obs G st t).1 u]
  exact hNE u hu

theorem specLegal_congr (G : Geom) {st st' : BoardState} (t : Nat)
    (helem : (st'.tiles t).element = (st.tiles t).element)
    (hex : ∀ u, (st'.tiles u).exists_ = (st.tiles u).exists_) :
    specLegal G st' t = specLegal G st t := by
  unfold specLegal
  rw [helem, hex t, gaps_eq_of_exists_eq G hex t]

/-- `SolverFrame._execute(tiles, False)`: set `exists = False` on each listed
tile in turn (this never raises). -/
def removeTiles (G : Geom) (l : List Nat) (st : BoardState) : BoardState :=
  l.foldl (fun s j => (setExists G s j false).2) st

theorem setExists_false_pair (G : Geom) (st : BoardState) (t : Nat) :
    setExists G st t false = (none, (setExists G st t false).2) := by
  have h : setExists G st t false
      = ((setExists G st t false).1, (setExists G st t false).2) := rfl
  rw [h, setExists_false_fst]

theorem removeTiles_inv (G : Geom) (T : Nat) (hWF : G.WF) (hT : T < G.n) :
    ∀ (l : List Nat) (st : BoardState), (∀ j ∈ l, j ≠ T) →
      noEmptyElem G st → cacheOk G st → specLegal G st T = true →
      noEmptyElem G (removeTiles G l st) ∧ cacheOk G (removeTiles G l st) ∧
        specLegal G (removeTiles G l st) T = true := by
  intro l
  induction l with
  | nil => exact fun st _ hNE hC hS => ⟨hNE, hC, hS⟩
  | cons j l ih =>
    intro st hl hNE hC hS
    have hj : j ≠ T := hl j (by simp)
    have hpair := setExists_false_pair G st j
    have hNE' := setExists_noEmptyElem G hNE hpair
    have hC' := setExists_cacheOk G j false hWF hNE hC hpair
    have hS' : specLegal G (setExists G st j false).2 T = true := by
      have hex' := setExists_ok_exists G st j false _ hpair
      have hel' := setExists_ok_element G st j false _ hpair
      have hexT : ((setExists G st j false).2.tiles T).exists_ = (st.tiles T).exists_ := by
        rw [hex' T, if_neg (Ne.symm hj)]
      have hle : ∀ r ∈ G.nbrs T, nbExists (setExists G st j false).2 r ≤ nbExists st r := by
        intro r hrm
        cases r with
        | none => simp [nbExists]
        | some i =>
          simp only [nbExists, hex' i]
          split
          · exact Bool.false_le _
          · exact le_refl _
      have hcr := circRun_board_mono G ((setExists G st j false).2) st T (hWF T hT).1 hle
      unfold specLegal at hS ⊢
      rw [hel' T, hexT]
      rcases Bool.and_eq_true_iff.mp hS with ⟨h1, h2⟩
      rw [h2] at hcr
      rw [h1]
      cases hcr' : circRun (gaps G (setExists G st j false).2 T)
      · rw [hcr'] at hcr
        exact absurd hcr (by decide)
      · rfl
    have := ih ((setExists G st j false).2) (fun i hi => hl i (by simp [hi])) hNE' hC' hS'
    simpa [removeTiles] using this

/-- C2.  Legality is monotone in removals: on a well-formed cache-coherent
board, once `legal(T)` answers true, setting `exists = False` on any list of
tiles other than `T` (leaving `T`'s element and existence untouched) keeps
`legal(T)` true. -/
theorem legality_monotone_under_removal (G : Geom) (st : BoardState) (T : Nat)
    (l : List Nat) (hWF : G.WF) (hT : T < G.n) (hNE : noEmptyElem G st)
    (hC : cacheOk G st) (hl : ∀ j ∈ l, j ≠ T)
    (hleg : (legalM G st T).1 = true) :
    (legalM G (removeTiles G l (legalM G st T).2) T).1 = true := by
  have h6 : (G.nbrs T).length = 6 := (hWF T hT).1
  have hfst := legalM_fst_spec G st T h6 (fun hel b hb => hC T hT hel b hb)
  have hS : specLegal G st T = true := by rw [← hfst]; exact hleg
  have hS1 : specLegal G (legalM G st T).2 T = true := by
    rw [specLegal_congr G T ((legalM_obs G st T).1 T) ((legalM_obs G st T).2.1)]
    exact hS
  have hC1 := legalM_snd_cacheOk G st T h6 hT hC
  have hNE1 := legalM_snd_noEmptyElem G st T hNE
  obtain ⟨hNE2, hC2, hS2⟩ := removeTiles_inv G T hWF hT l ((legalM G st T).2) hl hNE1 hC1 hS1
  rw [legalM_fst_spec G _ T h6 (fun hel b hb => hC2 T hT hel b hb)]
  exact hS2

/-- Invariant: a tile can exist only while it holds an element. -/
def existsElem (G : Geom) (st : BoardState) : Prop :=
  ∀ t, t < G.n → (st.tiles t).exists_ = true → (st.tiles t).element ≠ none

theorem elemAddNew_tiles (st : BoardState) (t : Nat) (v : Option String) :
    (elemAddNew st t v).tiles = st.tiles := by
  unfold elemAddNew
  split <;> [split <;> rfl; rfl]

theorem tileElementChanged_tiles (st : BoardState) (t : Nat)
    (old newv : Option String) :
    ((tileElementChanged st t old newv).2).tiles = st.tiles := by
  unfold tileElementChanged
  split
  · rfl
  split
  · split
    · rfl
    · exact elemAddNew_tiles _ _ _
  · exact elemAddNew_tiles _ _ _

/-- C7.  Making an element-less tile existant raises `AttributeError` leaving
the board — in particular the tile's `exists`, which was `False` — entirely
untouched; a successful assignment of `None` to a tile's element forces its
`exists` flag to `False`; and consequently every successful mutation
preserves the invariant that an existing tile holds a non-None element. -/
theorem exists_implies_element_invariant (G : Geom) (st : BoardState) (t : Nat)
    (hE : existsElem G st) (ht : t < G.n) :
    ((st.tiles t).element = none →
      setExists G st t true
        = (some "AttributeError: Cannot make a tile with no element existant", st)) ∧
    (∀ st', setElement G st t none = (none, st') → (st'.tiles t).exists_ = false) ∧
    (∀ v st', setElement G st t v = (none, st') → existsElem G st') ∧
    (∀ v st', setExists G st t v = (none, st') → existsElem G st') := by
  refine ⟨?_, ?_, ?_, ?_⟩
  · intro hel
    have hexf : (st.tiles t).exists_ = false := by
      cases hx : (st.tiles t).exists_
      · rfl
      · exact absurd hel (hE t ht hx)
    simp [setExists, hel, hexf]
  · intro st' h
    unfold setElement at h
    split at h
    · -- value None equals the old element, so the old element was None and
      -- the invariant forces the tile not to exist
      next hv =>
        rw [beq_iff_eq] at hv
        cases h
        cases hx : (st.tiles t).exists_
        · rfl
        · exact absurd hv.symm (hE t ht hx)
    · split at h
      · cases h
      · next st2 heq =>
          rw [if_neg (by simp [elemTruthy])] at h
          rw [setExists_ok_exists G _ t false st' h t, if_pos rfl]
  · intro v st' h
    unfold setElement at h
    split at h
    · cases h
      exact hE
    · split at h
      · cases h
      · next st2 heq =>
          have hst2 : st2.tiles = fun u =>
              if u = t then { st.tiles t with element := v } else st.tiles u := by
            have h2 := tileElementChanged_tiles
              (setTile st t { st.tiles t with element := v }) t (st.tiles t).element v
            rw [heq] at h2
            exact h2
          by_cases htr : elemTruthy v = true
          · rw [if_pos htr] at h
            cases h
            intro u hu hx
            simp only [hst2] at hx ⊢
            by_cases hut : u = t
            · rw [if_pos hut] at hx ⊢
              intro hc
              simp only at hc
              rw [hc] at htr
              exact absurd htr (by simp [elemTruthy])
            · rw [if_neg hut] at hx ⊢
              exact hE u hu hx
          · rw [if_neg htr] at h
            intro u hu hx
            rw [setExists_ok_exists G st2 t false st' h u] at hx
            rw [setExists_ok_element G st2 t false st' h u]
            simp only [hst2] at hx ⊢
            by_cases hut : u = t
            · rw [if_pos hut] at hx
              cases hx
            · rw [if_neg hut] at hx ⊢
              rw [if_neg hut] at hx
              exact hE u hu hx
  · intro v st' h
    by_cases hv : v = (st.tiles t).exists_
    · rw [setExists_noop G st t v hv] at h
      cases h
      exact hE
    · have helok : (st.tiles t).element ≠ none ∨ v = false := by
        cases hvv : v
        · exact Or.inr rfl
        · left
          intro hc
          rw [hvv] at h
          unfold setExists at h
          rw [if_neg (by simpa [hvv] using hv), if_pos (by simp [hc])] at h
          cases h
      intro u hu hx
      rw [setExists_ok_element G st t v st' h u]
      rw [setExists_ok_exists G st t v st' h u] at hx
      by_cases hut : u = t
      · rw [if_pos hut] at hx
        rcases helok with he | hf
        · rw [hut]
          exact he
        · rw [hf] at hx
          cases hx
      · rw [if_neg hut] at hx
        exact hE u hu hx

/-- Witness for C7: the invariant theorem applied to the fresh radius-6
board at tile 0. -/
theorem exists_implies_element_invariant_witness :
    (((BoardState.init).tiles 0).element = none →
      setExists hexBoard BoardState.init 0 true
        = (some "AttributeError: Cannot make a tile with no element existant",
           BoardState.init)) ∧
    (∀ st', setElement hexBoard BoardState.init 0 none = (none, st') →
      (st'.tiles 0).exists_ = false) ∧
    (∀ v st', setElement hexBoard BoardState.init 0 v = (none, st') →
      existsElem hexBoard st') ∧
    (∀ v st', setExists hexBoard BoardState.init 0 v = (none, st') →
      existsElem hexBoard st') :=
  exists_implies_element_invariant hexBoard BoardState.init 0
    (by unfold existsElem; decide) (by decide)

/-- C10.  A tile holding element `e` while the board catalog has no entry
under key `e`: assigning any different element evaluates
`self.catalog[e].discard(tile)`, and `CatalogDictionary.__missing__` answers
with an immutable tuple, which has no `discard` — an `AttributeError`. -/
theorem element_reassignment_missing_key_raises (G : Geom) (st : BoardState)
    (t : Nat) (e : String) (v : Option String)
    (hel : (st.tiles t).element = some e)
    (hkey : catFind st.catalog e = none) (hne : v ≠ some e) :
    (setElement G st t v).1
      = some "AttributeError: tuple object has no attribute discard" := by
  unfold setElement
  rw [hel, if_neg (by simpa [beq_iff_eq] using hne)]
  unfold tileElementChanged
  rw [if_neg (by simp [beq_iff_eq]; exact fun hc => hne hc.symm)]
  dsimp only
  rw [setTile_catalog, hkey]

/-- Witness for C10: assign `salt` to a non-existing tile of a fresh board
(which creates no catalog entry), then assign `fire`. -/
theorem element_reassignment_missing_key_raises_witness :
    (setElement hexBoard
        (setElement hexBoard BoardState.init 0 (some "salt")).2 0 (some "fire")).1
      = some "AttributeError: tuple object has no attribute discard" :=
  element_reassignment_missing_key_raises hexBoard
    (setElement hexBoard BoardState.init 0 (some "salt")).2 0 "salt" (some "fire")
    (by decide) rfl (by decide)

/-- Witness for C1 on the radius-6 board holding a single fire tile. -/
theorem legal_iff_three_consecutive_gaps_witness :
    (legalM hexBoard fireBoard 0).1 = specLegal hexBoard fireBoard 0 ∧
      cacheOk hexBoard (legalM hexBoard fireBoard 0).2 :=
  legal_iff_three_consecutive_gaps hexBoard fireBoard 0 hexBoard_wf
    (by decide) (cacheOk_of_cacheOkB _ _ (by decide))

/-- A board holding two far-apart fire tiles. -/
def fireBoard2 : BoardState := populate hexBoard [(0, "fire"), (5, "fire")]

set_option maxRecDepth 40000 in
/-- Witness for C2 on the radius-6 board: tile 0 stays legal after removing
tile 5. -/
theorem legality_monotone_under_removal_witness :
    (legalM hexBoard (removeTiles hexBoard [5] (legalM hexBoard fireBoard2 0).2) 0).1
      = true :=
  legality_monotone_under_removal hexBoard fireBoard2 0 [5] hexBoard_wf (by decide)
    (by unfold noEmptyElem; decide) (cacheOk_of_cacheOkB _ _ (by decide))
    (by decide) (by decide)

/-- Membership in `board.catalog[e]` as observable through `__missing__`
semantics: the key is present and the tile is in the stored set. -/
def catMemL (c : List (String × Finset Nat)) (e : String) (t : Nat) : Prop :=
  ∃ s, catFind c e = some s ∧ t ∈ s

/-- C6's invariant: a tile is catalogued under an element exactly when it
holds that element and exists. -/
def catalogOk (G : Geom) (st : BoardState) : Prop :=
  ∀ e t, t < G.n →
    (catMemL st.catalog e t ↔
      (st.tiles t).element = some e ∧ (st.tiles t).exists_ = true)

theorem catFind_cons (p : String × Finset Nat) (c : List (String × Finset Nat))
    (e : String) :
    catFind (p :: c) e = if (p.1 == e) = true then some p.2 else catFind c e := by
  unfold catFind
  rw [List.find?_cons]
  by_cases hp : (p.1 == e) = true
  · simp [hp]
  · simp [hp]

theorem catFind_catSet (c : List (String × Finset Nat)) (e : String)
    (s : Finset Nat) (e' : String) :
    catFind (catSet c e s) e'
      = if e' = e then (catFind c e).map (fun _ => s) else catFind c e' := by
  induction c with
  | nil =>
    by_cases he : e' = e <;> simp [catSet, catFind, he]
  | cons p c ih =>
    have hcs : catSet (p :: c) e s
        = (if (p.1 == e) = true then (p.1, s) else p) :: catSet c e s := by
      unfold catSet
      rw [List.map_cons]
    rw [hcs]
    by_cases hpe : p.1 = e <;> by_cases he : e' = e
    · subst hpe
      subst he
      simp [catFind_cons, ih]
    · subst hpe
      simp [catFind_cons, beq_iff_eq, he, Ne.symm he, ih]
    · subst he
      simp [catFind_cons, beq_iff_eq, hpe, ih]
    · by_cases hpe' : p.1 = e' <;>
        simp [catFind_cons, beq_iff_eq, hpe, hpe', he, ih]

theorem catFind_append_single (c : List (String × Finset Nat)) (e : String)
    (s0 : Finset Nat) (e' : String) :
    catFind (c ++ [(e, s0)]) e'
      = match catFind c e' with
        | some s => some s
        | none => if e = e' then some s0 else none := by
  induction c with
  | nil =>
    have h0 : catFind ([] : List (String × Finset Nat)) e' = none := rfl
    rw [List.nil_append, h0, catFind_cons]
    by_cases he : e = e' <;> simp [beq_iff_eq, he, h0]
  | cons p c ih =>
    rw [List.cons_append, catFind_cons, catFind_cons]
    by_cases hp : (p.1 == e') = true
    · simp [hp]
    · simp [hp, ih]

theorem catFind_catAddTile (c : List (String × Finset Nat)) (e : String)
    (t : Nat) (e' : String) :
    catFind (catAddTile c e t) e'
      = if e' = e then some (insert t ((catFind c e).getD ∅)) else catFind c e' := by
  unfold catAddTile
  cases hf : catFind c e with
  | some s =>
    rw [catFind_catSet]
    by_cases he : e' = e <;> simp [he, hf]
  | none =>
    rw [catFind_append_single]
    by_cases he : e' = e
    · subst he
      simp [hf]
    · cases hf' : catFind c e' <;> simp [he, Ne.symm he, hf']

theorem catFind_catDiscardIfKey (c : List (String × Finset Nat)) (e : String)
    (t : Nat) (e' : String) :
    catFind (catDiscardIfKey c e t) e'
      = if e' = e then (catFind c e).map (fun s => s.erase t) else catFind c e' := by
  unfold catDiscardIfKey
  cases hf : catFind c e with
  | some s =>
    rw [catFind_catSet]
    by_cases he : e' = e <;> simp [he, hf]
  | none =>
    by_cases he : e' = e <;> simp [he, hf]

theorem catMemL_addTile (c : List (String × Finset Nat)) (e : String) (t : Nat)
    (e' : String) (u : Nat) :
    catMemL (catAddTile c e t) e' u ↔ (e' = e ∧ u = t) ∨ catMemL c e' u := by
  unfold catMemL
  rw [catFind_catAddTile]
  by_cases he : e' = e
  · subst he
    cases hf : catFind c e' with
    | none => simp [hf]
    | some s => simp [hf, Finset.mem_insert]
  · simp [he]

theorem catMemL_catSet_erase (c : List (String × Finset Nat)) (o : String)
    (s : Finset Nat) (t : Nat) (hf : catFind c o = some s) (e' : String) (u : Nat) :
    catMemL (catSet c o (s.erase t)) e' u
      ↔ catMemL c e' u ∧ ¬(e' = o ∧ u = t) := by
  unfold catMemL
  rw [catFind_catSet]
  by_cases he : e' = o
  · subst he
    simp [hf, Finset.mem_erase]
    tauto
  · simp [he]

theorem catMemL_discardIfKey (c : List (String × Finset Nat)) (e : String)
    (t : Nat) (e' : String) (u : Nat) :
    catMemL (catDiscardIfKey c e t) e' u
      ↔ catMemL c e' u ∧ ¬(e' = e ∧ u = t) := by
  unfold catMemL
  rw [catFind_catDiscardIfKey]
  by_cases he : e' = e
  · subst he
    cases hf : catFind c e' with
    | none => simp [hf]
    | some s =>
      simp [hf, Finset.mem_erase]
      tauto
  · simp [he]

/-- Executable catalog membership test. -/
def catMemB (c : List (String × Finset Nat)) (e : String) (u : Nat) : Bool :=
  match catFind c e with
  | some s => u ∈ s
  | none => false

theorem catMemL_iff_catMemB (c : List (String × Finset Nat)) (e : String)
    (u : Nat) : catMemL c e u ↔ catMemB c e u = true := by
  unfold catMemL catMemB
  cases hf : catFind c e <;> simp

/-- Executable check of the catalog invariant. -/
def catalogOkB (G : Geom) (st : BoardState) : Bool :=
  (st.catalog.all fun p =>
    decide (∀ u ∈ p.2, (st.tiles u).element = some p.1 ∧ (st.tiles u).exists_ = true)) &&
  ((List.range G.n).all fun u =>
    match (st.tiles u).element, (st.tiles u).exists_ with
    | some e, true => catMemB st.catalog e u
    | _, _ => true)

theorem catalogOk_of_catalogOkB (G : Geom) (st : BoardState)
    (h : catalogOkB G st = true) : catalogOk G st := by
  rw [catalogOkB, Bool.and_eq_true, List.all_eq_true, List.all_eq_true] at h
  intro e t ht
  constructor
  · rintro ⟨s, hs, hts⟩
    unfold catFind at hs
    cases hfind : (st.catalog.find? fun p => p.1 == e) with
    | none =>
      rw [hfind] at hs
      cases hs
    | some p =>
      rw [hfind] at hs
      have hp2 : p.2 = s := by simpa using hs
      have hp1 : p.1 = e := by
        have h1 := List.find?_some hfind
        rwa [beq_iff_eq] at h1
      have hmem : p ∈ st.catalog := List.mem_of_find?_eq_some hfind
      have hall := h.1 p hmem
      rw [decide_eq_true_iff] at hall
      have hu := hall t (hp2 ▸ hts)
      rw [hp1] at hu
      exact hu
  · rintro ⟨hel, hex⟩
    have := h.2 t (List.mem_range.mpr ht)
    rw [hel, hex] at this
    rw [catMemL_iff_catMemB]
    simpa using this

theorem setExists_ok_unfold (G : Geom) (st : BoardState) (t : Nat) (v : Bool)
    (st' : BoardState) (h : setExists G st t v = (none, st'))
    (hch : v ≠ (st.tiles t).exists_) :
    st'.catalog = (existsCatalogUpdate (setTile st t
      { st.tiles t with exists_ := v }) t v).catalog := by
  unfold setExists at h
  rw [if_neg (by simpa using hch)] at h
  split at h
  · cases h
  · cases h
    unfold tileExistsChanged
    rw [if_neg (by simpa using Ne.symm hch), expireNeighbors_eq_fold,
      expireFold_catalog]

theorem setTile_tiles_self (st : BoardState) (t : Nat) (d : TileData) :
    (setTile st t d).tiles t = d := by
  rw [setTile_tiles, if_pos rfl]

theorem setExists_ok_catalog_none (G : Geom) (st : BoardState) (t : Nat)
    (v : Bool) (st' : BoardState) (h : setExists G st t v = (none, st'))
    (hch : v ≠ (st.tiles t).exists_) (hel : elemTruthy (st.tiles t).element = false) :
    st'.catalog = st.catalog := by
  rw [setExists_ok_unfold G st t v st' h hch]
  unfold existsCatalogUpdate
  rw [setTile_tiles_self]
  simp only
  rw [if_neg (by simp [hel])]
  rfl

theorem setExists_ok_catalog_some (G : Geom) (st : BoardState) (t : Nat)
    (v : Bool) (st' : BoardState) (m : String)
    (h : setExists G st t v = (none, st')) (hch : v ≠ (st.tiles t).exists_)
    (helt : (st.tiles t).element = some m) (hm : m ≠ "") :
    st'.catalog = if v then catAddTile st.catalog m t
      else catDiscardIfKey st.catalog m t := by
  rw [setExists_ok_unfold G st t v st' h hch]
  unfold existsCatalogUpdate
  rw [setTile_tiles_self]
  simp only [helt]
  rw [if_pos (by simp [elemTruthy, hm])]
  cases v <;> rfl

theorem setExists_ok_true_elem (G : Geom) (st : BoardState) (t : Nat)
    (st' : BoardState) (h : setExists G st t true = (none, st'))
    (hch : (st.tiles t).exists_ = false) : (st.tiles t).element ≠ none := by
  unfold setExists at h
  rw [if_neg (by simp [hch])] at h
  intro hc
  rw [if_pos (by simp [hc])] at h
  cases h

theorem elemAddNew_catalog_some (s : BoardState) (t : Nat) (m : String) :
    (elemAddNew s t (some m)).catalog
      = if (s.tiles t).exists_ = true then catAddTile s.catalog m t
        else s.catalog := by
  by_cases hx : (s.tiles t).exists_ = true <;> simp [elemAddNew, hx]

theorem elemAddNew_catalog_none (s : BoardState) (t : Nat) :
    (elemAddNew s t none).catalog = s.catalog := rfl

theorem tileElementChanged_ok (st : BoardState) (t : Nat)
    (old newv : Option String) (st2 : BoardState)
    (h : tileElementChanged st t old newv = (none, st2))
    (hne : (old == newv) = false) :
    st2.tiles = st.tiles ∧
    ((old = none ∧ st2.catalog = (elemAddNew st t newv).catalog) ∨
     (∃ o s, old = some o ∧ catFind st.catalog o = some s ∧
       st2.catalog = (elemAddNew { st with catalog := catSet st.catalog o (s.erase t) }
         t newv).catalog)) := by
  unfold tileElementChanged at h
  rw [if_neg (by simp_all)] at h
  cases old with
  | none =>
    dsimp only at h
    cases h
    exact ⟨elemAddNew_tiles _ _ _, Or.inl ⟨rfl, rfl⟩⟩
  | some o =>
    dsimp only at h
    cases hf : catFind st.catalog o with
    | none =>
      rw [hf] at h
      cases h
    | some s =>
      rw [hf] at h
      cases h
      refine ⟨?_, Or.inr ⟨o, s, rfl, hf, rfl⟩⟩
      rw [elemAddNew_tiles]

/-- Catalog-invariant preservation by the `exists` setter. -/
theorem catalogOk_setExists (G : Geom) (st : BoardState)
    (hC : catalogOk G st) (hNE : noEmptyElem G st) (t : Nat) (ht : t < G.n)
    (v : Bool) (st' : BoardState) (h : setExists G st t v = (none, st')) :
    catalogOk G st' ∧ noEmptyElem G st' := by
  by_cases hch : v = (st.tiles t).exists_
  · rw [setExists_noop G st t v hch] at h
    cases h
    exact ⟨hC, hNE⟩
  · have hel := setExists_ok_element G st t v st' h
    have hex := setExists_ok_exists G st t v st' h
    have hNE' : noEmptyElem G st' := fun u hu => by rw [hel u]; exact hNE u hu
    refine ⟨?_, hNE'⟩
    intro e u hu
    by_cases htr : elemTruthy (st.tiles t).element = true
    · obtain ⟨hnn, hne⟩ := (elemTruthy_iff _).mp htr
      cases helt : (st.tiles t).element with
      | none => exact absurd helt hnn
      | some m =>
        have hm : m ≠ "" := fun hc => hne (by rw [helt, hc])
        have hcat := setExists_ok_catalog_some G st t v st' m h hch helt hm
        cases v with
        | false =>
          rw [if_neg (by simp)] at hcat
          rw [hcat, catMemL_discardIfKey, hel u, hex u]
          by_cases hut : u = t
          · subst hut
            rw [if_pos rfl]
            constructor
            · rintro ⟨hmem, hnm⟩
              obtain ⟨he1, _⟩ := (hC e u hu).mp hmem
              rw [helt] at he1
              cases he1
              exact absurd ⟨rfl, rfl⟩ hnm
            · rintro ⟨_, hfalse⟩
              cases hfalse
          · rw [if_neg hut]
            constructor
            · rintro ⟨hmem, _⟩
              exact (hC e u hu).mp hmem
            · intro hrhs
              exact ⟨(hC e u hu).mpr hrhs, fun hc => hut hc.2⟩
        | true =>
          rw [if_pos rfl] at hcat
          rw [hcat, catMemL_addTile, hel u, hex u]
          by_cases hut : u = t
          · subst hut
            rw [if_pos rfl]
            constructor
            · rintro (⟨he, _⟩ | hmem)
              · rw [helt, he]
                exact ⟨rfl, rfl⟩
              · obtain ⟨he1, _⟩ := (hC e u hu).mp hmem
                rw [helt] at he1
                cases he1
                rw [helt]
                exact ⟨rfl, rfl⟩
            · rintro ⟨hsome, _⟩
              rw [helt] at hsome
              cases hsome
              exact Or.inl ⟨rfl, rfl⟩
          · rw [if_neg hut]
            constructor
            · rintro (⟨_, hut'⟩ | hmem)
              · exact absurd hut' hut
              · exact (hC e u hu).mp hmem
            · intro hrhs
              exact Or.inr ((hC e u hu).mpr hrhs)
    · have helt : (st.tiles t).element = none := by
        cases helt : (st.tiles t).element with
        | none => rfl
        | some m =>
          rw [helt] at htr
          by_cases hm : m = ""
          · exact absurd (helt.trans (by rw [hm])) (hNE t ht)
          · exact absurd ((elemTruthy_iff _).mpr (by simp [hm])) htr
      cases v with
      | true =>
        have := setExists_ok_true_elem G st t st' h
          (by cases hx : (st.tiles t).exists_ with
            | false => rfl
            | true => exact absurd hx.symm hch)
        exact absurd helt this
      | false =>
        have hcat := setExists_ok_catalog_none G st t false st' h hch
          (by rw [helt]; rfl)
        rw [hcat, hel u, hex u]
        by_cases hut : u = t
        · subst hut
          rw [if_pos rfl]
          constructor
          · intro hmem
            obtain ⟨he1, _⟩ := (hC e u hu).mp hmem
            rw [helt] at he1
            cases he1
          · rintro ⟨_, hfalse⟩
            cases hfalse
        · rw [if_neg hut]
          exact hC e u hu

/-- Catalog-invariant preservation by the `element` setter, for assignments
that avoid the empty string. -/
theorem catalogOk_setElement (G : Geom) (st : BoardState)
    (hC : catalogOk G st) (hNE : noEmptyElem G st) (t : Nat) (ht : t < G.n)
    (v : Option String) (st' : BoardState) (hv : v ≠ some "")
    (h : setElement G st t v = (none, st')) :
    catalogOk G st' ∧ noEmptyElem G st' := by
  unfold setElement at h
  split at h
  · cases h
    exact ⟨hC, hNE⟩
  · next hvne =>
    split at h
    · cases h
    · next st2 heq =>
      have hne2 : (((st.tiles t).element) == v) = false := by
        rw [beq_eq_false_iff_ne]
        intro hc
        exact hvne (by simp [beq_iff_eq, hc])
      obtain ⟨htiles2, hcases⟩ := tileElementChanged_ok _ t _ v st2 heq hne2
      have hel2 : ∀ u, (st2.tiles u).element
          = if u = t then v else (st.tiles u).element := by
        intro u
        rw [htiles2, setTile_tiles]
        by_cases hut : u = t
        · rw [if_pos hut, if_pos hut]
        · rw [if_neg hut, if_neg hut]
      have hex2 : ∀ u, (st2.tiles u).exists_ = (st.tiles u).exists_ := by
        intro u
        rw [htiles2, setTile_tiles]
        by_cases hut : u = t
        · rw [if_pos hut, hut]
        · rw [if_neg hut]
      have hext1 : ((setTile st t { st.tiles t with element := v }).tiles t).exists_
          = (st.tiles t).exists_ := by
        rw [setTile_tiles_self]
      have hNE2 : noEmptyElem G st2 := by
        intro u hu
        rw [hel2 u]
        by_cases hut : u = t
        · rw [if_pos hut]
          exact hv
        · rw [if_neg hut]
          exact hNE u hu
      have hC2 : catalogOk G st2 := by
        intro e u hu
        rw [hel2 u, hex2 u]
        rcases hcases with ⟨holdnone, hcat⟩ | ⟨o, s, holdsome, hf, hcat⟩
        · -- the tile previously held no element, so it was in no catalog set
          have hnomem : ∀ e', ¬catMemL st.catalog e' t := by
            intro e' hmem
            obtain ⟨he1, _⟩ := (hC e' t ht).mp hmem
            rw [holdnone] at he1
            cases he1
          cases v with
          | none =>
            rw [elemAddNew_catalog_none] at hcat
            rw [hcat]
            by_cases hut : u = t
            · subst hut
              rw [if_pos rfl]
              constructor
              · intro hmem
                exact absurd hmem (hnomem e)
              · rintro ⟨hc, _⟩
                cases hc
            · rw [if_neg hut]
              exact hC e u hu
          | some m =>
            rw [elemAddNew_catalog_some, hext1] at hcat
            by_cases hext : (st.tiles t).exists_ = true
            · rw [if_pos hext] at hcat
              rw [hcat, catMemL_addTile]
              by_cases hut : u = t
              · subst hut
                rw [if_pos rfl, hext]
                constructor
                · rintro (⟨he, _⟩ | hmem)
                  · exact ⟨by rw [he], rfl⟩
                  · exact absurd hmem (hnomem e)
                · rintro ⟨hsome, _⟩
                  cases hsome
                  exact Or.inl ⟨rfl, rfl⟩
              · rw [if_neg hut]
                constructor
                · rintro (⟨_, hut'⟩ | hmem)
                  · exact absurd hut' hut
                  · exact (hC e u hu).mp hmem
                · intro hrhs
                  exact Or.inr ((hC e u hu).mpr hrhs)
            · rw [if_neg hext] at hcat
              rw [hcat]
              by_cases hut : u = t
              · subst hut
                rw [if_pos rfl]
                constructor
                · intro hmem
                  exact absurd hmem (hnomem e)
                · rintro ⟨_, hex'⟩
                  exact absurd hex' hext
              · rw [if_neg hut]
                exact hC e u hu
        · -- the tile previously held element o, catalogued under key o
          simp only [setTile_catalog] at hf
          have hmemt : ∀ e', catMemL st.catalog e' t ↔
              e' = o ∧ (st.tiles t).exists_ = true := by
            intro e'
            rw [hC e' t ht, holdsome]
            constructor
            · rintro ⟨hc, hx⟩
              cases hc
              exact ⟨rfl, hx⟩
            · rintro ⟨hc, hx⟩
              exact ⟨by rw [hc], hx⟩
          cases v with
          | none =>
            rw [elemAddNew_catalog_none] at hcat
            dsimp only at hcat
            simp only [setTile_catalog] at hcat
            rw [hcat, catMemL_catSet_erase st.catalog o s t hf]
            by_cases hut : u = t
            · subst hut
              rw [if_pos rfl]
              constructor
              · rintro ⟨hmem, hno⟩
                obtain ⟨heo, _⟩ := (hmemt e).mp hmem
                exact absurd ⟨heo, rfl⟩ hno
              · rintro ⟨hc, _⟩
                cases hc
            · rw [if_neg hut]
              constructor
              · rintro ⟨hmem, _⟩
                exact (hC e u hu).mp hmem
              · intro hrhs
                exact ⟨(hC e u hu).mpr hrhs, fun hc => hut hc.2⟩
          | some m =>
            rw [elemAddNew_catalog_some] at hcat
            dsimp only at hcat
            simp only [setTile_catalog] at hcat
            rw [hext1] at hcat
            by_cases hext : (st.tiles t).exists_ = true
            · rw [if_pos hext] at hcat
              rw [hcat, catMemL_addTile]
              by_cases hut : u = t
              · subst hut
                rw [if_pos rfl, hext]
                constructor
                · rintro (⟨he, _⟩ | hmem)
                  · exact ⟨by rw [he], rfl⟩
                  · rw [catMemL_catSet_erase st.catalog o s _ hf] at hmem
                    obtain ⟨hmem', hno⟩ := hmem
                    obtain ⟨heo, _⟩ := (hmemt e).mp hmem'
                    exact absurd ⟨heo, rfl⟩ hno
                · rintro ⟨hsome, _⟩
                  cases hsome
                  exact Or.inl ⟨rfl, rfl⟩
              · rw [if_neg hut]
                rw [catMemL_catSet_erase st.catalog o s t hf]
                constructor
                · rintro (⟨_, hut'⟩ | ⟨hmem, _⟩)
                  · exact absurd hut' hut
                  · exact (hC e u hu).mp hmem
                · intro hrhs
                  exact Or.inr ⟨(hC e u hu).mpr hrhs, fun hc => hut hc.2⟩
            · rw [if_neg hext] at hcat
              rw [hcat, catMemL_catSet_erase st.catalog o s t hf]
              by_cases hut : u = t
              · subst hut
                rw [if_pos rfl]
                constructor
                · rintro ⟨hmem, hno⟩
                  obtain ⟨heo, _⟩ := (hmemt e).mp hmem
                  exact absurd ⟨heo, rfl⟩ hno
                · rintro ⟨_, hex'⟩
                  exact absurd hex' hext
              · rw [if_neg hut]
                constructor
                · rintro ⟨hmem, _⟩
                  exact (hC e u hu).mp hmem
                · intro hrhs
                  exact ⟨(hC e u hu).mpr hrhs, fun hc => hut hc.2⟩
      by_cases htr : elemTruthy v = true
      · rw [if_pos htr] at h
        cases h
        exact ⟨hC2, hNE2⟩
      · rw [if_neg htr] at h
        exact catalogOk_setExists G st2 hC2 hNE2 t ht false st' h

/-- C6 (amended).  For every element `e` and on-board tile `t`, membership of
`t` in `board.catalog[e]` holds iff `t.element == e && t.exists`; both
`Board.tile_element_changed` and `Board.tile_exists_changed` (through the two
setters, each mutation succeeding without raising) preserve this invariant —
provided the empty-string element is never assigned, since Python truthiness
makes `''` bypass the catalog bookkeeping of `tile_exists_changed`. -/
theorem catalog_membership_invariant (G : Geom) (st : BoardState)
    (hC : catalogOk G st) (hNE : noEmptyElem G st) (t : Nat) (ht : t < G.n) :
    (∀ v st', v ≠ some "" → setElement G st t v = (none, st') →
      catalogOk G st' ∧ noEmptyElem G st') ∧
    (∀ v st', setExists G st t v = (none, st') →
      catalogOk G st' ∧ noEmptyElem G st') :=
  ⟨fun v st' hv h => catalogOk_setElement G st hC hNE t ht v st' hv h,
   fun v st' h => catalogOk_setExists G st hC hNE t ht v st' h⟩

/-- Witness for C6 (amended) on the single-fire-tile board. -/
theorem catalog_membership_invariant_witness :
    (∀ v st', v ≠ some "" → setElement hexBoard fireBoard 0 v = (none, st') →
      catalogOk hexBoard st' ∧ noEmptyElem hexBoard st') ∧
    (∀ v st', setExists hexBoard fireBoard 0 v = (none, st') →
      catalogOk hexBoard st' ∧ noEmptyElem hexBoard st') :=
  catalog_membership_invariant hexBoard fireBoard
    (catalogOk_of_catalogOkB _ _ (by decide)) (by unfold noEmptyElem; decide)
    0 (by decide)

/-- Counterexample to C6 as stated: on a fresh board, assigning the
empty-string element to tile 0 and then marking it existant both succeed,
yet afterwards tile 0 is not a member of `catalog[""]` although its element
is `""` and it exists — the biconditional fails for `e = ""`. -/
theorem catalog_membership_invariant_counterexample :
    (setElement hexBoard BoardState.init 0 (some "")).1 = none ∧
    (setExists hexBoard (setElement hexBoard BoardState.init 0 (some "")).2 0 true).1
      = none ∧
    ¬catalogOk hexBoard
      (setExists hexBoard
        (setElement hexBoard BoardState.init 0 (some "")).2 0 true).2 := by
  refine ⟨rfl, rfl, ?_⟩
  intro hOk
  have h := (hOk "" 0 (by decide)).mpr ⟨by decide, by decide⟩
  obtain ⟨s, hs, _⟩ := h
  have hnone : catFind
      ((setExists hexBoard
        (setElement hexBoard BoardState.init 0 (some "")).2 0 true).2).catalog ""
      = none := by decide
  rw [hnone] at hs
  cases hs

/-- `Board.CARDINALS` (a Python set; modelled in a fixed iteration order). -/
def CARDINALS : List String := ["water", "earth", "fire", "air"]

/-- `Board.METALS` (ordered). -/
def METALS : List String := ["mercury", "tin", "iron", "copper", "silver", "gold"]

/-- `itertools.combinations(l, 2)` as two-tile moves, in Python order. -/
def combinations2 (l : List Nat) : List (List Nat) :=
  match l with
  | [] => []
  | x :: xs => xs.map (fun y => [x, y]) ++ combinations2 xs

/-- `itertools.product(a, b)` as two-tile moves. -/
def product2 (a b : List Nat) : List (List Nat) :=
  a.flatMap (fun x => b.map (fun y => [x, y]))

/-- `itertools.product` of quintessence with one tile of each cardinal. -/
def product5 (a b c d e : List Nat) : List (List Nat) :=
  a.flatMap fun x1 => b.flatMap fun x2 => c.flatMap fun x3 =>
    d.flatMap fun x4 => e.map fun x5 => [x1, x2, x3, x4, x5]

/-- `list(itertools.chain(*zip(quicksilver, it), it))` with `it` an iterator
over the legal metals: alternating quicksilver/metal pairs, then the metals
left over after quicksilver runs out (leftover quicksilver is dropped). -/
def chainZip : List Nat → List Nat → List Nat
  | q :: qs, m :: ms => q :: m :: chainZip qs ms
  | [], ms => ms
  | _ :: _, [] => []

/-- `list(itertools.chain(*zip(a, b)))`. -/
def zipFlat : List Nat → List Nat → List Nat
  | x :: xs, y :: ys => x :: y :: zipFlat xs ys
  | _, _ => []

/-- The filtering loop of `Board.legal_tiles()`: keep the tiles whose `legal`
property answers true, threading the property's cache writes. -/
def legalFilter (G : Geom) : List Nat → BoardState → List Nat × BoardState
  | [], st => ([], st)
  | t :: ts, st =>
    match legalM G st t with
    | (b, st1) =>
      match legalFilter G ts st1 with
      | (l, st2) => (if b then t :: l else l, st2)

/-- `Board.legal_tiles()` over the tiles in index order. -/
def legalTilesM (G : Geom) (st : BoardState) : List Nat × BoardState :=
  legalFilter G (List.range G.n) st

/-- `itertools.takewhile(operator.attrgetter('legal'), ...)`. -/
def takeWhileLegalM (G : Geom) : List Nat → BoardState → List Nat × BoardState
  | [], st => ([], st)
  | t :: ts, st =>
    match legalM G st t with
    | (true, st1) =>
      match takeWhileLegalM G ts st1 with
      | (l, st2) => (t :: l, st2)
    | (false, st1) => ([], st1)

/-- Python truthiness of `self.catalog[e]`: key present with a nonempty set
(a missing key answers with the empty tuple). -/
def catNonempty (st : BoardState) (e : String) : Bool :=
  match catFind st.catalog e with
  | some s => s ≠ ∅
  | none => false

/-- Ascending enumeration of a finite set of tile numbers (Python iterates
sets in unspecified order; ascending tile index is the order used
throughout this model). -/
def ascTiles (s : Finset Nat) : List Nat :=
  (List.range (s.sup id + 1)).filter (fun t => t ∈ s)

theorem mem_ascTiles (s : Finset Nat) (t : Nat) : t ∈ ascTiles s ↔ t ∈ s := by
  unfold ascTiles
  rw [List.mem_filter]
  constructor
  · rintro ⟨-, h⟩
    simpa using h
  · intro h
    refine ⟨List.mem_range.mpr ?_, by simpa using h⟩
    exact Nat.lt_succ_of_le (Finset.le_sup (f := id) h)

theorem ascTiles_ne_nil (s : Finset Nat) (h : s ≠ ∅) : ascTiles s ≠ [] := by
  obtain ⟨x, hx⟩ := Finset.nonempty_iff_ne_empty.mpr h
  intro hnil
  have hx' := (mem_ascTiles s x).mpr hx
  rw [hnil] at hx'
  cases hx'

/-- `list(self.catalog[e])[0]`.  Python picks an arbitrary set element;
modelled as the smallest tile index (each metal has at most one tile on a
real board, making the choice unique). -/
def catFirst (st : BoardState) (e : String) : Nat :=
  (ascTiles ((catFind st.catalog e).getD ∅)).headD 0

/-- `Board.remaining_metals()`: the single catalogued tile of each remaining
metal, in `METALS` order. -/
def remainingMetals (st : BoardState) : List Nat :=
  (METALS.filter (fun e => catNonempty st e)).map (fun e => catFirst st e)

/-- `Tile.all_neighbors(tiles)`: every element-bearing neighbor of the given
tiles, excluding the tiles themselves (the dummy sentinel is dropped). -/
def allNeighbors (G : Geom) (st : BoardState) (tiles : Finset Nat) : Finset Nat :=
  ((ascTiles tiles).foldl
    (fun acc t =>
      acc ∪ (((G.nbrs t).filterMap id).filter
        (fun j => elemTruthy (st.tiles j).element)).toFinset)
    ∅) \ tiles

/-- The salt reachability scan of `Solver.valid_moves`: `salt_is_free` drops
to false as soon as some existing neighbor of a remaining salt tile is not
legal (Python iterates a set; modelled in ascending index order — the
resulting boolean does not depend on the order). -/
def saltFreeLoop (G : Geom) : List Nat → BoardState → Bool × BoardState
  | [], st => (true, st)
  | t :: ts, st =>
    if (st.tiles t).exists_ then
      match legalM G st t with
      | (true, st1) => saltFreeLoop G ts st1
      | (false, st1) => (false, st1)
    else saltFreeLoop G ts st

/-- The cardinal-element loop at the end of `Solver.valid_moves`.  Returns
either an early `return [tiles]` (all copies of a cardinal legal, salt free,
no quintessence) or the accumulated move list.  The key-presence test
`element not in catalog` is true exactly when no legal tile holds the
element and the quintessence branch did not pre-create the cardinal keys of
the local defaultdict. -/
def cardinalLoop (catL : String → List Nat) (salts : List Nat)
    (salts_total odd_cardinals quints_legal quints_total : Nat)
    (salt_is_free : Bool) (counts : String → Nat) :
    List String → List (List Nat) → Option (List (List Nat)) × List (List Nat)
  | [], moves => (none, moves)
  | e :: es, moves =>
    if catL e = [] ∧ quints_legal = 0 then
      cardinalLoop catL salts salts_total odd_cardinals quints_legal quints_total
        salt_is_free counts es moves
    else
      let count := counts e
      let tiles := catL e
      let odd := count % 2
      if tiles.length = count ∧ salt_is_free = true ∧ quints_total = 0 ∧
          (odd ≠ 0 → salts ≠ []) then
        if odd ≠ 0 then (some [tiles ++ [salts.headD 0]], moves)
        else (some [tiles], moves)
      else
        let moves1 := moves ++ combinations2 tiles
        let moves2 := moves1 ++
          (if salts_total > odd_cardinals + 1 ∨ odd ≠ 0 then product2 salts tiles
           else [])
        cardinalLoop catL salts salts_total odd_cardinals quints_legal quints_total
          salt_is_free counts es moves2

/-- The salt / quintessence / cardinal tail of `Solver.valid_moves`, from the
`salts = catalog['salt']` line onward; `catL` is the local defaultdict of
legal tiles by element and `moves2` the moves accumulated so far. -/
def vmSalt (G : Geom) (catL : String → List Nat) (moves2 : List (List Nat))
    (st2 : BoardState) : List (List Nat) × BoardState :=
  let salts := catL "salt"
  let salts_legal := salts.length
  let salts_total := remaining st2 "salt"
  let salt_is_free0 := salts_legal = salts_total
  let cardinal_counts : String → Nat := fun e => remaining st2 e
  if salt_is_free0 ∧ salts.length = 0 ∧
      (∀ e ∈ CARDINALS, cardinal_counts e = 0) then
    ([salts], st2)
  else
    match (if salt_is_free0 then
             saltFreeLoop G
               (ascTiles (allNeighbors G st2 ((catFind st2.catalog "salt").getD ∅)))
               st2
           else (false, st2)) with
    | (salt_loop_ok, st3) =>
      let salt_is_free := salt_is_free0 ∧ salt_loop_ok = true
      let quints := catL "quintessence"
      let quints_legal := quints.length
      let quints_total := remaining st3 "quintessence"
      let moves3 := moves2 ++
        (if quints_legal ≠ 0 then
          product5 quints (catL "water") (catL "earth") (catL "fire") (catL "air")
         else [])
      let odd_cardinals := (CARDINALS.map (fun e => cardinal_counts e % 2)).sum
      match cardinalLoop catL salts salts_total odd_cardinals quints_legal
          quints_total (decide salt_is_free) cardinal_counts CARDINALS moves3 with
      | (some ret, _) => (ret, st3)
      | (none, moves4) =>
        let moves5 := moves4 ++
          (if ((salts_legal : Int) - (odd_cardinals : Int) ≥ 2) ∨
              quints_total = 0 then combinations2 salts
           else [])
        (moves5, st3)

/-- `Solver.valid_moves`, state-threaded (the `legal` property caches as it
is queried).  Python-set iteration orders are modelled as ascending tile
index and the `CARDINALS` set as a fixed list; the results the claims are
about do not depend on those orders. -/
def validMovesM (G : Geom) (st : BoardState) : List (List Nat) × BoardState :=
  match legalTilesM G st with
  | (legal_tiles, st1) =>
    if legal_tiles.isEmpty then ([], st1)
    else if legal_tiles.length = 1 then
      if (st1.tiles (legal_tiles.headD 0)).element == some "gold"
          && !catNonempty st1 "silver" then ([legal_tiles], st1)
      else ([], st1)
    else
      let catL : String → List Nat := fun e =>
        legal_tiles.filter (fun t => (st1.tiles t).element == some e)
      let remaining_metals := remainingMetals st1
      match takeWhileLegalM G remaining_metals st1 with
      | (legal_metals, st2) =>
        let quicksilver := catL "quicksilver"
        let quicksilver_count := remaining st2 "quicksilver"
        if !legal_metals.isEmpty &&
            (quicksilver_count == quicksilver.length) &&
            (remaining_metals.length - 1 ≤ legal_metals.length) &&
            (remaining_metals.length - 1 ≤ quicksilver_count) then
          ([chainZip quicksilver legal_metals], st2)
        else
          let moves1 : List (List Nat) :=
            if !legal_metals.isEmpty then
              quicksilver.map (fun t => [t, legal_metals.headD 0])
            else []
          let vitae := catL "vitae"
          let mors := catL "mors"
          if !vitae.isEmpty && !mors.isEmpty &&
              (vitae.length == remaining st2 "vitae") &&
              (mors.length == remaining st2 "mors") then
            ([zipFlat vitae mors], st2)
          else
            let moves2 := moves1 ++
              (if !vitae.isEmpty && !mors.isEmpty then product2 vitae mors else [])
            vmSalt G catL moves2 st2

/-- A board holding four pairwise non-adjacent salt tiles and nothing else. -/
def saltBoard4 : BoardState :=
  populate hexBoard [(0, "salt"), (5, "salt"), (85, "salt"), (90, "salt")]

/-- A board holding two far-apart quicksilver tiles and nothing else. -/
def qsBoard2 : BoardState :=
  populate hexBoard [(0, "quicksilver"), (5, "quicksilver")]

set_option maxRecDepth 100000 in
/-- C5.  Failing input for the salt shortcut: four legal salt tiles (all
remaining salt), no cardinal elements.  `Solver.valid_moves` tests
`not (len(salts) or any(cardinal_counts.values()))` although its own comment
asks for "a multiple of two", so with salt actually present the shortcut can
never fire; the six salt-pair moves come back instead of the single
remove-all-salt move the spec (and the comment) describe. -/
theorem salt_shortcut_never_fires_with_salt :
    (validMovesM hexBoard saltBoard4).1
      = [[0, 5], [0, 85], [0, 90], [5, 85], [5, 90], [85, 90]] ∧
    (validMovesM hexBoard saltBoard4).1 ≠ [[0, 5, 85, 90]] := by
  constructor
  · decide
  · decide

set_option maxRecDepth 100000 in
/-- Counterexample to C4 as stated: on a board whose only tiles are two legal
quicksilver tiles (no metals), `Solver.valid_moves` reaches the zero-salt
shortcut `return [catalog['salt']]` and yields a single empty move — not a
non-empty list of tiles. -/
theorem valid_moves_empty_move_counterexample :
    (validMovesM hexBoard qsBoard2).1 = [[]] := by
  decide

/-- Catalog sets only reference on-board tiles. -/
def catInRange (G : Geom) (st : BoardState) : Prop :=
  ∀ e s, catFind st.catalog e = some s → ∀ u ∈ s, u < G.n

/-- Observational equality of board states: same elements, existence flags
and catalog (the legality caches may differ). -/
def Obs (st st' : BoardState) : Prop :=
  (∀ u, (st'.tiles u).element = (st.tiles u).element) ∧
  (∀ u, (st'.tiles u).exists_ = (st.tiles u).exists_) ∧
  st'.catalog = st.catalog

theorem Obs.refl (st : BoardState) : Obs st st := ⟨fun _ => rfl, fun _ => rfl, rfl⟩

theorem Obs.trans {s1 s2 s3 : BoardState} (h1 : Obs s1 s2) (h2 : Obs s2 s3) :
    Obs s1 s3 :=
  ⟨fun u => (h2.1 u).trans (h1.1 u), fun u => (h2.2.1 u).trans (h1.2.1 u),
   h2.2.2.trans h1.2.2⟩

theorem legalM_Obs (G : Geom) (st : BoardState) (t : Nat) :
    Obs st (legalM G st t).2 :=
  ⟨(legalM_obs G st t).1, (legalM_obs G st t).2.1, (legalM_obs G st t).2.2⟩

theorem specLegal_of_Obs (G : Geom) {st st' : BoardState} (h : Obs st st')
    (t : Nat) : specLegal G st' t = specLegal G st t :=
  specLegal_congr G t (h.1 t) h.2.1

theorem chainZip_subset : ∀ (a b : List Nat) (t : Nat),
    t ∈ chainZip a b → t ∈ a ∨ t ∈ b := by
  intro a
  induction a with
  | nil =>
    intro b t ht
    exact Or.inr (by simpa [chainZip] using ht)
  | cons q qs ih =>
    intro b t ht
    cases b with
    | nil => simp [chainZip] at ht
    | cons m ms =>
      simp only [chainZip, List.mem_cons] at ht
      rcases ht with rfl | rfl | ht
      · exact Or.inl (by simp)
      · exact Or.inr (by simp)
      · rcases ih ms t ht with h | h
        · exact Or.inl (by simp [h])
        · exact Or.inr (by simp [h])

theorem zipFlat_subset : ∀ (a b : List Nat) (t : Nat),
    t ∈ zipFlat a b → t ∈ a ∨ t ∈ b := by
  intro a
  induction a with
  | nil =>
    intro b t ht
    simp [zipFlat] at ht
  | cons x xs ih =>
    intro b t ht
    cases b with
    | nil => simp [zipFlat] at ht
    | cons y ys =>
      simp only [zipFlat, List.mem_cons] at ht
      rcases ht with rfl | rfl | ht
      · exact Or.inl (by simp)
      · exact Or.inr (by simp)
      · rcases ih ys t ht with h | h
        · exact Or.inl (by simp [h])
        · exact Or.inr (by simp [h])

theorem combinations2_subset : ∀ (l : List Nat) (m : List Nat),
    m ∈ combinations2 l → ∀ t ∈ m, t ∈ l := by
  intro l
  induction l with
  | nil => intro m hm; simp [combinations2] at hm
  | cons x xs ih =>
    intro m hm t htm
    rw [combinations2, List.mem_append] at hm
    rcases hm with hm | hm
    · rw [List.mem_map] at hm
      obtain ⟨y, hy, rfl⟩ := hm
      simp only [List.mem_cons, List.not_mem_nil, or_false] at htm
      rcases htm with rfl | rfl
      · exact List.mem_cons_self _ _
      · exact List.mem_cons_of_mem _ hy
    · exact List.mem_cons_of_mem x (ih m hm t htm)

theorem product2_subset (a b : List Nat) (m : List Nat)
    (hm : m ∈ product2 a b) : ∀ t ∈ m, t ∈ a ∨ t ∈ b := by
  rw [product2, List.mem_flatMap] at hm
  obtain ⟨x, hx, hm⟩ := hm
  rw [List.mem_map] at hm
  obtain ⟨y, hy, rfl⟩ := hm
  intro t htm
  simp only [List.mem_cons] at htm
  rcases htm with rfl | rfl | h
  · exact Or.inl hx
  · exact Or.inr hy
  · cases h

theorem product5_subset (a b c d e : List Nat) (m : List Nat)
    (hm : m ∈ product5 a b c d e) :
    ∀ t ∈ m, t ∈ a ∨ t ∈ b ∨ t ∈ c ∨ t ∈ d ∨ t ∈ e := by
  simp only [product5, List.mem_flatMap, List.mem_map] at hm
  obtain ⟨x1, h1, x2, h2, x3, h3, x4, h4, x5, h5, rfl⟩ := hm
  intro t htm
  simp only [List.mem_cons] at htm
  rcases htm with rfl | rfl | rfl | rfl | rfl | h
  · exact Or.inl h1
  · exact Or.inr (Or.inl h2)
  · exact Or.inr (Or.inr (Or.inl h3))
  · exact Or.inr (Or.inr (Or.inr (Or.inl h4)))
  · exact Or.inr (Or.inr (Or.inr (Or.inr h5)))
  · cases h

theorem headD_mem {l : List Nat} (h : l ≠ []) : l.headD 0 ∈ l := by
  cases l with
  | nil => exact absurd rfl h
  | cons x xs => simp

theorem legalFilter_spec (G : Geom) (hWF : G.WF) :
    ∀ (l : List Nat) (st : BoardState), (∀ t ∈ l, t < G.n) → cacheOk G st →
      (legalFilter G l st).1 = l.filter (fun t => specLegal G st t) ∧
      Obs st (legalFilter G l st).2 ∧ cacheOk G (legalFilter G l st).2 := by
  intro l
  induction l with
  | nil => exact fun st _ hC => ⟨rfl, Obs.refl st, hC⟩
  | cons t ts ih =>
    intro st hlt hC
    have ht : t < G.n := hlt t (by simp)
    have h6 : (G.nbrs t).length = 6 := (hWF t ht).1
    have hfst : (legalM G st t).1 = specLegal G st t :=
      legalM_fst_spec G st t h6 (fun hel b hb => hC t ht hel b hb)
    have hobs1 : Obs st (legalM G st t).2 := legalM_Obs G st t
    have hC1 : cacheOk G (legalM G st t).2 := legalM_snd_cacheOk G st t h6 ht hC
    rw [show legalFilter G (t :: ts) st
        = (match legalM G st t with
          | (b, st1) =>
            match legalFilter G ts st1 with
            | (l, st2) => (if b then t :: l else l, st2)) from rfl]
    rcases hL : legalM G st t with ⟨b, st1⟩
    dsimp only
    rw [hL] at hfst hobs1 hC1
    dsimp only at hfst hobs1 hC1
    obtain ⟨hrec, hobs2, hC2⟩ := ih st1 (fun u hu => hlt u (by simp [hu])) hC1
    rcases hF : legalFilter G ts st1 with ⟨lr, st2⟩
    dsimp only
    rw [hF] at hrec hobs2 hC2
    dsimp only at hrec hobs2 hC2
    have hlr : lr = ts.filter (fun u => specLegal G st u) := by
      rw [hrec]
      exact List.filter_congr (fun u _ => by rw [specLegal_of_Obs G hobs1 u])
    refine ⟨?_, Obs.trans hobs1 hobs2, hC2⟩
    rw [List.filter_cons, hlr, ← hfst]

theorem takeWhile_congr_list {α : Type _} {p q : α → Bool} :
    ∀ l : List α, (∀ a ∈ l, p a = q a) → l.takeWhile p = l.takeWhile q := by
  intro l
  induction l with
  | nil => intro _; rfl
  | cons x xs ih =>
    intro h
    rw [List.takeWhile_cons, List.takeWhile_cons, h x (by simp)]
    split
    · rw [ih (fun a ha => h a (by simp [ha]))]
    · rfl

theorem takeWhileLegalM_spec (G : Geom) (hWF : G.WF) :
    ∀ (l : List Nat) (st : BoardState), (∀ t ∈ l, t < G.n) → cacheOk G st →
      (takeWhileLegalM G l st).1 = l.takeWhile (fun t => specLegal G st t) ∧
      Obs st (takeWhileLegalM G l st).2 ∧ cacheOk G (takeWhileLegalM G l st).2 := by
  intro l
  induction l with
  | nil => exact fun st _ hC => ⟨rfl, Obs.refl st, hC⟩
  | cons t ts ih =>
    intro st hlt hC
    have ht : t < G.n := hlt t (by simp)
    have h6 : (G.nbrs t).length = 6 := (hWF t ht).1
    have hfst : (legalM G st t).1 = specLegal G st t :=
      legalM_fst_spec G st t h6 (fun hel b hb => hC t ht hel b hb)
    have hobs1 : Obs st (legalM G st t).2 := legalM_Obs G st t
    have hC1 : cacheOk G (legalM G st t).2 := legalM_snd_cacheOk G st t h6 ht hC
    rw [show takeWhileLegalM G (t :: ts) st
        = (match legalM G st t with
          | (true, st1) =>
            match takeWhileLegalM G ts st1 with
            | (l, st2) => (t :: l, st2)
          | (false, st1) => ([], st1)) from rfl]
    rcases hL : legalM G st t with ⟨b, st1⟩
    rw [hL] at hfst hobs1 hC1
    dsimp only at hfst hobs1 hC1
    cases b with
    | false =>
      dsimp only
      refine ⟨?_, hobs1, hC1⟩
      rw [List.takeWhile_cons, ← hfst]
      simp
    | true =>
      dsimp only
      obtain ⟨hrec, hobs2, hC2⟩ := ih st1 (fun u hu => hlt u (by simp [hu])) hC1
      rcases hF : takeWhileLegalM G ts st1 with ⟨lr, st2⟩
      dsimp only
      rw [hF] at hrec hobs2 hC2
      dsimp only at hrec hobs2 hC2
      have hlr : lr = ts.takeWhile (fun u => specLegal G st u) := by
        rw [hrec]
        exact takeWhile_congr_list ts (fun u _ => by rw [specLegal_of_Obs G hobs1 u])
      refine ⟨?_, Obs.trans hobs1 hobs2, hC2⟩
      rw [List.takeWhile_cons, ← hfst, hlr]
      simp

theorem saltFreeLoop_post (G : Geom) (hWF : G.WF) :
    ∀ (l : List Nat) (st : BoardState), (∀ t ∈ l, t < G.n) → cacheOk G st →
      Obs st (saltFreeLoop G l st).2 ∧ cacheOk G (saltFreeLoop G l st).2 := by
  intro l
  induction l with
  | nil => exact fun st _ hC => ⟨Obs.refl st, hC⟩
  | cons t ts ih =>
    intro st hlt hC
    have ht : t < G.n := hlt t (by simp)
    have h6 : (G.nbrs t).length = 6 := (hWF t ht).1
    rw [show saltFreeLoop G (t :: ts) st
        = (if (st.tiles t).exists_ then
            match legalM G st t with
            | (true, st1) => saltFreeLoop G ts st1
            | (false, st1) => (false, st1)
           else saltFreeLoop G ts st) from rfl]
    by_cases hex : (st.tiles t).exists_ = true
    · rw [if_pos hex]
      have hobs1 : Obs st (legalM G st t).2 := legalM_Obs G st t
      have hC1 : cacheOk G (legalM G st t).2 := legalM_snd_cacheOk G st t h6 ht hC
      rcases hL : legalM G st t with ⟨b, st1⟩
      rw [hL] at hobs1 hC1
      dsimp only at hobs1 hC1
      cases b with
      | true =>
        obtain ⟨hobs2, hC2⟩ := ih st1 (fun u hu => hlt u (by simp [hu])) hC1
        exact ⟨Obs.trans hobs1 hobs2, hC2⟩
      | false => exact ⟨hobs1, hC1⟩
    · rw [if_neg hex]
      exact ih st (fun u hu => hlt u (by simp [hu])) hC

theorem mem_takeWhile_prop {α : Type _} {p : α → Bool} :
    ∀ {l : List α} {a : α}, a ∈ l.takeWhile p → p a = true ∧ a ∈ l := by
  intro l
  induction l with
  | nil => intro a ha; simp at ha
  | cons x xs ih =>
    intro a ha
    rw [List.takeWhile_cons] at ha
    by_cases hp : p x = true
    · rw [if_pos hp] at ha
      rcases List.mem_cons.mp ha with rfl | ha
      · exact ⟨hp, by simp⟩
      · obtain ⟨h1, h2⟩ := ih ha
        exact ⟨h1, by simp [h2]⟩
    · rw [if_neg hp] at ha
      simp at ha

theorem mem_foldl_union {f : Nat → Finset Nat} {u : Nat} :
    ∀ (l : List Nat) (acc : Finset Nat),
      (u ∈ l.foldl (fun a t => a ∪ f t) acc ↔ u ∈ acc ∨ ∃ t ∈ l, u ∈ f t) := by
  intro l
  induction l with
  | nil => intro acc; simp
  | cons x xs ih =>
    intro acc
    rw [List.foldl_cons, ih]
    simp only [Finset.mem_union, List.mem_cons]
    constructor
    · rintro ((h | h) | ⟨t, htl, hf⟩)
      · exact Or.inl h
      · exact Or.inr ⟨x, Or.inl rfl, h⟩
      · exact Or.inr ⟨t, Or.inr htl, hf⟩
    · rintro (h | ⟨t, rfl | htl, hf⟩)
      · exact Or.inl (Or.inl h)
      · exact Or.inl (Or.inr hf)
      · exact Or.inr ⟨t, htl, hf⟩

theorem allNeighbors_lt (G : Geom) (hWF : G.WF) (st : BoardState)
    (tiles : Finset Nat) (htiles : ∀ t ∈ tiles, t < G.n) :
    ∀ u ∈ allNeighbors G st tiles, u < G.n := by
  intro u hu
  unfold allNeighbors at hu
  rw [Finset.mem_sdiff] at hu
  obtain ⟨hin, _⟩ := hu
  rw [mem_foldl_union] at hin
  rcases hin with h0 | ⟨t, htl, hf⟩
  · simp at h0
  · rw [mem_ascTiles] at htl
    rw [List.mem_toFinset, List.mem_filter] at hf
    obtain ⟨hmem, _⟩ := hf
    rw [List.mem_filterMap] at hmem
    obtain ⟨r, hr, hid⟩ := hmem
    cases r with
    | none => cases hid
    | some j =>
      cases hid
      exact ((hWF t (htiles t htl)).2 u hr).1

theorem catFirst_mem (st : BoardState) (e : String)
    (h : catNonempty st e = true) :
    ∃ s, catFind st.catalog e = some s ∧ catFirst st e ∈ s := by
  unfold catNonempty at h
  cases hf : catFind st.catalog e with
  | none => rw [hf] at h; cases h
  | some s =>
    rw [hf] at h
    have hs : s ≠ ∅ := by simpa using h
    refine ⟨s, rfl, ?_⟩
    unfold catFirst
    rw [hf]
    have hnil : ascTiles s ≠ [] := ascTiles_ne_nil s hs
    have hmem := headD_mem hnil
    exact (mem_ascTiles s _).mp hmem

theorem remainingMetals_lt (G : Geom) (st : BoardState)
    (hB : catInRange G st) : ∀ t ∈ remainingMetals st, t < G.n := by
  intro t ht
  unfold remainingMetals at ht
  rw [List.mem_map] at ht
  obtain ⟨e, he, rfl⟩ := ht
  rw [List.mem_filter] at he
  obtain ⟨_, hne⟩ := he
  obtain ⟨s, hf, hm⟩ := catFirst_mem st e hne
  exact hB e s hf _ hm

theorem catInRange_of_Obs (G : Geom) {st st' : BoardState} (h : Obs st st')
    (hB : catInRange G st) : catInRange G st' := by
  intro e s hf
  rw [h.2.2] at hf
  exact hB e s hf

theorem cardinalLoop_good (catL : String → List Nat) (salts : List Nat)
    (salts_total odd_cardinals quints_legal quints_total : Nat)
    (salt_is_free : Bool) (counts : String → Nat) (good : Nat → Prop)
    (hcat : ∀ e, ∀ t ∈ catL e, good t) (hsalt : ∀ t ∈ salts, good t) :
    ∀ (es : List String) (moves : List (List Nat)),
      (∀ m ∈ moves, ∀ t ∈ m, good t) →
      (∀ m ∈ (cardinalLoop catL salts salts_total odd_cardinals quints_legal
          quints_total salt_is_free counts es moves).2, ∀ t ∈ m, good t) ∧
      (∀ ret, (cardinalLoop catL salts salts_total odd_cardinals quints_legal
          quints_total salt_is_free counts es moves).1 = some ret →
        ∀ m ∈ ret, ∀ t ∈ m, good t) := by
  intro es
  induction es with
  | nil =>
    intro moves hmoves
    exact ⟨hmoves, fun ret hret => by cases hret⟩
  | cons e es ih =>
    intro moves hmoves
    rw [show cardinalLoop catL salts salts_total odd_cardinals quints_legal
        quints_total salt_is_free counts (e :: es) moves
      = (if catL e = [] ∧ quints_legal = 0 then
          cardinalLoop catL salts salts_total odd_cardinals quints_legal
            quints_total salt_is_free counts es moves
        else
          let count := counts e
          let tiles := catL e
          let odd := count % 2
          if tiles.length = count ∧ salt_is_free = true ∧ quints_total = 0 ∧
              (odd ≠ 0 → salts ≠ []) then
            if odd ≠ 0 then (some [tiles ++ [salts.headD 0]], moves)
            else (some [tiles], moves)
          else
            let moves1 := moves ++ combinations2 tiles
            let moves2 := moves1 ++
              (if salts_total > odd_cardinals + 1 ∨ odd ≠ 0 then
                product2 salts tiles
               else [])
            cardinalLoop catL salts salts_total odd_cardinals quints_legal
              quints_total salt_is_free counts es moves2) from rfl]
    by_cases h1 : catL e = [] ∧ quints_legal = 0
    · rw [if_pos h1]
      exact ih moves hmoves
    · rw [if_neg h1]
      dsimp only
      by_cases h2 : (catL e).length = counts e ∧ salt_is_free = true ∧
          quints_total = 0 ∧ (counts e % 2 ≠ 0 → salts ≠ [])
      · rw [if_pos h2]
        by_cases h3 : counts e % 2 ≠ 0
        · rw [if_pos h3]
          refine ⟨hmoves, fun ret hret => ?_⟩
          cases hret
          intro m hm t htm
          rcases List.mem_singleton.mp hm with rfl
          rcases List.mem_append.mp htm with h | h
          · exact hcat e t h
          · rcases List.mem_singleton.mp h with rfl
            exact hsalt _ (headD_mem (h2.2.2.2 h3))
        · rw [if_neg h3]
          refine ⟨hmoves, fun ret hret => ?_⟩
          cases hret
          intro m hm t htm
          rcases List.mem_singleton.mp hm with rfl
          exact hcat e t htm
      · rw [if_neg h2]
        apply ih
        intro m hm t htm
        rcases List.mem_append.mp hm with hm | hm
        · rcases List.mem_append.mp hm with hm | hm
          · exact hmoves m hm t htm
          · exact hcat e t (combinations2_subset _ m hm t htm)
        · by_cases h4 : salts_total > odd_cardinals + 1 ∨ counts e % 2 ≠ 0
          · rw [if_pos h4] at hm
            rcases product2_subset _ _ m hm t htm with h | h
            · exact hsalt t h
            · exact hcat e t h
          · rw [if_neg h4] at hm
            cases hm

theorem getD_empty_lt (G : Geom) (st : BoardState) (hB : catInRange G st)
    (e : String) : ∀ u ∈ (catFind st.catalog e).getD ∅, u < G.n := by
  cases hf : catFind st.catalog e with
  | none => simp
  | some s =>
    intro u hu
    exact hB e s hf u (by simpa using hu)

theorem vmSalt_good (G : Geom) (st : BoardState) (catL : String → List Nat)
    (moves2 : List (List Nat)) (st2 : BoardState) (hWF : G.WF)
    (hobs : Obs st st2) (hC2 : cacheOk G st2) (hB2 : catInRange G st2)
    (good : Nat → Prop)
    (hcat : ∀ e, ∀ t ∈ catL e, good t)
    (hmoves : ∀ m ∈ moves2, ∀ t ∈ m, good t) :
    (∀ m ∈ (vmSalt G catL moves2 st2).1, ∀ t ∈ m, good t) ∧
    Obs st (vmSalt G catL moves2 st2).2 ∧ cacheOk G (vmSalt G catL moves2 st2).2 := by
  unfold vmSalt
  dsimp only
  split
  · refine ⟨?_, hobs, hC2⟩
    intro m hm t htm
    rcases List.mem_singleton.mp hm with rfl
    exact hcat "salt" t htm
  · have hloop : ∀ slok st3,
        (if (catL "salt").length = remaining st2 "salt" then
          saltFreeLoop G
            (ascTiles (allNeighbors G st2 ((catFind st2.catalog "salt").getD ∅)))
            st2
         else (false, st2)) = (slok, st3) →
        Obs st2 st3 ∧ cacheOk G st3 := by
      intro slok st3 h
      split at h
      · have hbound : ∀ t ∈ ascTiles (allNeighbors G st2
            ((catFind st2.catalog "salt").getD ∅)), t < G.n := by
          intro t ht
          rw [mem_ascTiles] at ht
          exact allNeighbors_lt G hWF st2 _ (getD_empty_lt G st2 hB2 "salt") t ht
        obtain ⟨ho, hc⟩ := saltFreeLoop_post G hWF _ st2 hbound hC2
        rw [h] at ho hc
        exact ⟨ho, hc⟩
      · cases h
        exact ⟨Obs.refl _, hC2⟩
    rcases hSL : (if (catL "salt").length = remaining st2 "salt" then
        saltFreeLoop G
          (ascTiles (allNeighbors G st2 ((catFind st2.catalog "salt").getD ∅)))
          st2
       else (false, st2)) with ⟨slok, st3⟩
    obtain ⟨hobs3, hC3⟩ := hloop slok st3 hSL
    dsimp only
    have hmoves3 : ∀ m ∈ moves2 ++
        (if (catL "quintessence").length ≠ 0 then
          product5 (catL "quintessence") (catL "water") (catL "earth")
            (catL "fire") (catL "air")
         else []), ∀ t ∈ m, good t := by
      intro m hm t htm
      rcases List.mem_append.mp hm with hm | hm
      · exact hmoves m hm t htm
      · split at hm
        · rcases product5_subset _ _ _ _ _ m hm t htm with h | h | h | h | h
          · exact hcat "quintessence" t h
          · exact hcat "water" t h
          · exact hcat "earth" t h
          · exact hcat "fire" t h
          · exact hcat "air" t h
        · cases hm
    obtain ⟨hm4, hret⟩ := cardinalLoop_good catL (catL "salt")
      (remaining st2 "salt")
      ((CARDINALS.map (fun e => remaining st2 e % 2)).sum)
      (catL "quintessence").length (remaining st3 "quintessence")
      (decide ((catL "salt").length = remaining st2 "salt" ∧ slok = true))
      (fun e => remaining st2 e) good (fun e t ht => hcat e t ht)
      (fun t ht => hcat "salt" t ht) CARDINALS _ hmoves3
    rcases hCL : cardinalLoop catL (catL "salt") (remaining st2 "salt")
        ((CARDINALS.map (fun e => remaining st2 e % 2)).sum)
        (catL "quintessence").length (remaining st3 "quintessence")
        (decide ((catL "salt").length = remaining st2 "salt" ∧ slok = true))
        (fun e => remaining st2 e) CARDINALS
        (moves2 ++
          (if (catL "quintessence").length ≠ 0 then
            product5 (catL "quintessence") (catL "water") (catL "earth")
              (catL "fire") (catL "air")
           else [])) with ⟨ro, m4⟩
    rw [hCL] at hm4 hret
    dsimp only at hm4 hret
    cases ro with
    | some ret =>
      dsimp only
      exact ⟨hret ret rfl, Obs.trans hobs hobs3, hC3⟩
    | none =>
      dsimp only
      refine ⟨?_, Obs.trans hobs hobs3, hC3⟩
      intro m hm t htm
      rcases List.mem_append.mp hm with hm | hm
      · exact hm4 m hm t htm
      · split at hm
        · exact hcat "salt" t (combinations2_subset _ m hm t htm)
        · cases hm

theorem validMovesM_good (G : Geom) (st : BoardState) (hWF : G.WF)
    (hC : cacheOk G st) (hB : catInRange G st) :
    (∀ m ∈ (validMovesM G st).1, ∀ t ∈ m, specLegal G st t = true ∧ t < G.n) ∧
    Obs st (validMovesM G st).2 ∧ cacheOk G (validMovesM G st).2 := by
  obtain ⟨hlt_eq, hobs1, hC1⟩ :=
    legalFilter_spec G hWF (List.range G.n) st (fun t ht => List.mem_range.mp ht) hC
  unfold validMovesM
  rw [show legalTilesM G st = legalFilter G (List.range G.n) st from rfl]
  rcases hLT : legalFilter G (List.range G.n) st with ⟨lt, st1⟩
  dsimp only
  rw [hLT] at hlt_eq hobs1 hC1
  dsimp only at hlt_eq hobs1 hC1
  have hGoodLt : ∀ t ∈ lt, specLegal G st t = true ∧ t < G.n := by
    intro t ht
    rw [hlt_eq, List.mem_filter] at ht
    exact ⟨ht.2, List.mem_range.mp ht.1⟩
  split
  · exact ⟨by simp, hobs1, hC1⟩
  · split
    · split
      · refine ⟨?_, hobs1, hC1⟩
        intro m hm t htm
        rcases List.mem_singleton.mp hm with rfl
        exact hGoodLt t htm
      · exact ⟨by simp, hobs1, hC1⟩
    · have hB1 : catInRange G st1 := catInRange_of_Obs G hobs1 hB
      obtain ⟨hlm_eq, hobs2', hC2'⟩ :=
        takeWhileLegalM_spec G hWF (remainingMetals st1) st1
          (remainingMetals_lt G st1 hB1) hC1
      rcases hTW : takeWhileLegalM G (remainingMetals st1) st1 with ⟨lm, st2⟩
      dsimp only
      rw [hTW] at hlm_eq hobs2' hC2'
      dsimp only at hlm_eq hobs2' hC2'
      have hobs02 : Obs st st2 := Obs.trans hobs1 hobs2'
      have hGoodLm : ∀ t ∈ lm, specLegal G st t = true ∧ t < G.n := by
        intro t ht
        rw [hlm_eq] at ht
        obtain ⟨hp, hmem⟩ := mem_takeWhile_prop ht
        refine ⟨?_, remainingMetals_lt G st1 hB1 t hmem⟩
        rw [← specLegal_of_Obs G hobs1 t]
        exact hp
      have hCatL : ∀ e, ∀ t ∈ lt.filter (fun u => (st1.tiles u).element == some e),
          specLegal G st t = true ∧ t < G.n := by
        intro e t ht
        exact hGoodLt t (List.mem_filter.mp ht).1
      split
      · refine ⟨?_, hobs02, hC2'⟩
        intro m hm t htm
        rcases List.mem_singleton.mp hm with rfl
        rcases chainZip_subset _ _ t htm with h | h
        · exact hCatL "quicksilver" t h
        · exact hGoodLm t h
      · split
        · refine ⟨?_, hobs02, hC2'⟩
          intro m hm t htm
          rcases List.mem_singleton.mp hm with rfl
          rcases zipFlat_subset _ _ t htm with h | h
          · exact hCatL "vitae" t h
          · exact hCatL "mors" t h
        · refine vmSalt_good G st _ _ st2 hWF hobs02 hC2'
            (catInRange_of_Obs G hobs02 hB)
            (fun t => specLegal G st t = true ∧ t < G.n)
            (fun e t ht => hCatL e t ht) ?_
          intro m hm t htm
          rcases List.mem_append.mp hm with hm | hm
          · split at hm
            · rw [List.mem_map] at hm
              obtain ⟨q, hq, rfl⟩ := hm
              simp only [List.mem_cons, List.not_mem_nil, or_false] at htm
              rcases htm with rfl | rfl
              · exact hCatL "quicksilver" _ hq
              · next hcond =>
                  refine hGoodLm _ (headD_mem ?_)
                  intro hnil
                  rw [hnil] at hcond
                  simp at hcond
            · cases hm
          · split at hm
            · rcases product2_subset _ _ m hm t htm with h | h
              · exact hCatL "vitae" t h
              · exact hCatL "mors" t h
            · cases hm

/-- Executable check that catalog sets only hold on-board tiles. -/
def catInRangeB (G : Geom) (st : BoardState) : Bool :=
  st.catalog.all fun p => decide (∀ u ∈ p.2, u < G.n)

theorem catInRange_of_catInRangeB (G : Geom) (st : BoardState)
    (h : catInRangeB G st = true) : catInRange G st := by
  rw [catInRangeB, List.all_eq_true] at h
  intro e s hf u hu
  unfold catFind at hf
  cases hfind : (st.catalog.find? fun p => p.1 == e) with
  | none => rw [hfind] at hf; cases hf
  | some p =>
    rw [hfind] at hf
    have hp2 : p.2 = s := by simpa using hf
    have hmem : p ∈ st.catalog := List.mem_of_find?_eq_some hfind
    have := h p hmem
    rw [decide_eq_true_iff] at this
    exact this u (hp2 ▸ hu)

/-- C4 (amended).  Every move in the list returned by `Solver.valid_moves`
consists only of tiles that satisfy `legal(tile) == true` at the time
`valid_moves` was called.  (The moves are not always non-empty: when the
zero-salt shortcut fires, the single returned move is the empty list — see
the counterexample.) -/
theorem valid_moves_tiles_legal (G : Geom) (st : BoardState) (hWF : G.WF)
    (hC : cacheOk G st) (hB : catInRange G st) :
    ∀ m ∈ (validMovesM G st).1, ∀ t ∈ m, (legalM G st t).1 = true := by
  intro m hm t htm
  obtain ⟨hsp, hlt⟩ := (validMovesM_good G st hWF hC hB).1 m hm t htm
  rw [legalM_fst_spec G st t (hWF t hlt).1 (fun hel b hb => hC t hlt hel b hb)]
  exact hsp

set_option maxRecDepth 100000 in
/-- Witness for C4 (amended) on the four-salt board, at the returned move
`[0, 5]` and its tile `0`. -/
theorem valid_moves_tiles_legal_witness :
    [0, 5] ∈ (validMovesM hexBoard saltBoard4).1 ∧ 0 ∈ ([0, 5] : List Nat) ∧
    (legalM hexBoard saltBoard4 0).1 = true := by
  have hm : [0, 5] ∈ (validMovesM hexBoard saltBoard4).1 := by decide
  have ht : 0 ∈ ([0, 5] : List Nat) := by decide
  exact ⟨hm, ht,
    valid_moves_tiles_legal hexBoard saltBoard4 hexBoard_wf
      (cacheOk_of_cacheOkB _ _ (by decide))
      (catInRange_of_catInRangeB _ _ (by decide)) [0, 5] hm 0 ht⟩

/-! ### The solver (`solver.py`): `SolverFrame` and `Solver` -/

/-- `TileBase.bitmap`: OR together each listed tile's single bit
(`tile.bit = 1 << number`). -/
def tileBitmap (tiles : List Nat) : Nat :=
  tiles.foldl (fun acc t => acc ||| 2 ^ t) 0

/-- `Board.bitmap`: the bitmap of the currently existing tiles. -/
def boardBitmap (G : Geom) (st : BoardState) : Nat :=
  tileBitmap ((List.range G.n).filter (fun t => (st.tiles t).exists_))

/-- `bitmap & bits` with `bits = ~Tile.bitmap(move)`: on Python's unbounded
ints, and-ing with the complement clears from `bitmap` every bit set in the
mask, i.e. subtracts the common sub-pattern `bitmap &&& mask`. -/
def maskClear (bitmap mask : Nat) : Nat :=
  bitmap - (bitmap &&& mask)

/-- `SolverFrame`: one level of the backtracking stack — the move applied at
this level (empty when none is in effect), the untried moves, and the bitmap
of the board position the frame represents. -/
structure Frame where
  move : List Nat
  moves : List (List Nat)
  bitmap : Nat

/-- Result of a `Solver.solve` call: a propagated Python exception, `None`
(the step budget ran out), or the final verdict `True` (won) / `False`
(lost). -/
inductive SolveRes where
  | raised (e : String)
  | exhausted
  | done (won : Bool)
deriving DecidableEq

/-- The `Solver` object: the board, the frame stack (`none` before the first
`solve` call; the list's head is the top of the stack), the best recorded
solution, the verdict, the visited-bitmap set, and the two counters. -/
structure SolverState where
  board : BoardState
  stack : Option (List Frame)
  solution : List (List Nat)
  won : Option Bool
  bitmaps : Finset Nat
  bitmapHits : Nat
  iterations : Nat

/-- `Solver.__init__(board)`. -/
def mkSolver (board : BoardState) : SolverState :=
  { board := board, stack := none, solution := [], won := none,
    bitmaps := ∅, bitmapHits := 0, iterations := 0 }

/-- `SolverFrame.__init__(solver, bitmap)`: an empty move, this level's move
list from `solver.valid_moves()` (whose legality queries update the board's
caches), and the given bitmap. -/
def mkFrame (G : Geom) (st : BoardState) (bitmap : Nat) : Frame × BoardState :=
  ({ move := [], moves := (validMovesM G st).1, bitmap := bitmap },
   (validMovesM G st).2)

/-- `SolverFrame._execute(tiles, exists)`: set `exists` on each tile in
turn; a raise propagates at once, leaving the earlier tiles mutated. -/
def execTiles (G : Geom) (v : Bool) : List Nat → BoardState → Option String × BoardState
  | [], st => (none, st)
  | t :: ts, st =>
    match setExists G st t v with
    | (some e, st1) => (some e, st1)
    | (none, st1) => execTiles G v ts st1

/-- The `while self.moves` loop of `SolverFrame.run`.  `self.moves.pop()`
takes moves from the back of the list, so the loop walks the reversed
remainder, counting visited-bitmap hits; on finding a move whose bitmap is
unvisited it records and executes it.  Answers the loop's outcome (a raise,
`none` for exhaustion, or the new bitmap), the frame's new `move`, the new
reversed remainder, the board, and the hit counter. -/
def runScan (G : Geom) (bitmaps : Finset Nat) (frBitmap : Nat) :
    List (List Nat) → BoardState → Nat →
      Except String (Option Nat) × List Nat × List (List Nat) × BoardState × Nat
  | [], st, hits => (Except.ok none, [], [], st, hits)
  | mv :: rest, st, hits =>
    if maskClear frBitmap (tileBitmap mv) ∈ bitmaps then
      runScan G bitmaps frBitmap rest st (hits + 1)
    else
      match execTiles G false mv st with
      | (some e, st1) => (Except.error e, mv, rest, st1, hits)
      | (none, st1) =>
        (Except.ok (some (maskClear frBitmap (tileBitmap mv))), mv, rest, st1, hits)

/-- `SolverFrame.run`: undo this frame's current move (restoring its tiles,
which can raise), clear it, then scan the untried moves for one reaching an
unvisited bitmap; execute it and answer its bitmap, or `None` when the moves
are exhausted. -/
def frameRun (G : Geom) (bitmaps : Finset Nat) (fr : Frame) (st : BoardState)
    (hits : Nat) : Except String (Option Nat) × Frame × BoardState × Nat :=
  match (if fr.move.isEmpty then (none, st) else execTiles G true fr.move st) with
  | (some e, st1) => (Except.error e, fr, st1, hits)
  | (none, st1) =>
    match runScan G bitmaps fr.bitmap fr.moves.reverse st1 hits with
    | (res, mv, restRev, st2, hits2) =>
      (res, { move := mv, moves := restRev.reverse, bitmap := fr.bitmap }, st2, hits2)

/-- `Solver.save_solution`: the frames' moves from the bottom of the stack
up (the stack list is head-first, hence the reversal). -/
def saveSolution (stack : List Frame) : List (List Nat) :=
  stack.reverse.map Frame.move

/-- One iteration of the `while` loop of `Solver.solve`: bump the iteration
counter, run the top frame, then either push a new frame (made a move),
declare a win (board emptied), backtrack (frame exhausted), or declare a
loss (stack emptied).  `Sum.inl` carries a final answer, `Sum.inr` the state
the loop continues from. -/
def solveStep (G : Geom) (s : SolverState) : (SolveRes × SolverState) ⊕ SolverState :=
  match s.stack with
  | none => Sum.inl (SolveRes.raised "TypeError: stack is None", s)
  | some [] => Sum.inl (SolveRes.raised "IndexError: stack is empty", s)
  | some (top :: rest) =>
    match frameRun G s.bitmaps top s.board s.bitmapHits with
    | (Except.error e, top1, board1, hits1) =>
      Sum.inl (SolveRes.raised e,
        { s with iterations := s.iterations + 1, board := board1,
                 bitmapHits := hits1, stack := some (top1 :: rest) })
    | (Except.ok (some bm), top1, board1, hits1) =>
      if bm ≠ 0 then
        Sum.inr { s with iterations := s.iterations + 1,
                         board := (mkFrame G board1 bm).2,
                         bitmapHits := hits1,
                         bitmaps := insert bm s.bitmaps,
                         stack := some ((mkFrame G board1 bm).1 :: top1 :: rest) }
      else
        Sum.inl (SolveRes.done true,
          { s with iterations := s.iterations + 1, board := board1,
                   bitmapHits := hits1, stack := some (top1 :: rest),
                   solution := saveSolution (top1 :: rest), won := some true })
    | (Except.ok none, top1, board1, hits1) =>
      if rest.isEmpty then
        Sum.inl (SolveRes.done false,
          { s with iterations := s.iterations + 1, board := board1,
                   bitmapHits := hits1,
                   solution := if s.solution.length < rest.length + 1
                               then saveSolution (top1 :: rest) else s.solution,
                   stack := some rest, won := some false })
      else
        Sum.inr { s with iterations := s.iterations + 1, board := board1,
                         bitmapHits := hits1,
                         solution := if s.solution.length < rest.length + 1
                                     then saveSolution (top1 :: rest) else s.solution,
                         stack := some rest }

/-- The `while` loop of `Solver.solve` with `fuel` iterations of budget
left: a finite `steps` argument.  `solve(None)` behaves like any budget
large enough that the answer is not `exhausted` (see `solveLoop_stable`). -/
def solveLoop (G : Geom) : Nat → SolverState → SolveRes × SolverState
  | 0, s => (SolveRes.exhausted, s)
  | fuel + 1, s =>
    match solveStep G s with
    | Sum.inl r => r
    | Sum.inr s1 => solveLoop G fuel s1

/-- The first-call initialisation in `Solver.solve`: take the board's
bitmap, zero the counters, reset the visited set to that bitmap alone, and
push the root frame. -/
def solveInit (G : Geom) (s : SolverState) : SolverState :=
  { s with won := none, iterations := 0,
           bitmaps := {boardBitmap G s.board},
           bitmapHits := 0,
           board := (mkFrame G s.board (boardBitmap G s.board)).2,
           stack := some [(mkFrame G s.board (boardBitmap G s.board)).1] }

/-- `Solver.solve(steps)`: clear the verdict, initialise on the first call,
then run the loop on a budget of `fuel` steps. -/
def solveWith (G : Geom) (fuel : Nat) (s : SolverState) : SolveRes × SolverState :=
  match s.stack with
  | some _ => solveLoop G fuel { s with won := none }
  | none => solveLoop G fuel (solveInit G s)

/-- A board whose lone existing tile holds `mors`. -/
def morsBoard : BoardState := populate hexBoard [(0, "mors")]

theorem solveStep_inl_shape (G : Geom) (s : SolverState)
    (r : SolveRes × SolverState) (h : solveStep G s = Sum.inl r) :
    r.1 ≠ SolveRes.exhausted := by
  unfold solveStep at h
  split at h
  · cases h; simp
  · cases h; simp
  · split at h
    · cases h; simp
    · split at h
      · cases h
      · cases h; simp
    · split at h
      · cases h; simp
      · cases h

theorem solveStep_inr_won_stack (G : Geom) (s s1 : SolverState)
    (h : solveStep G s = Sum.inr s1) :
    s1.won = s.won ∧ ∃ fs, s1.stack = some fs := by
  unfold solveStep at h
  split at h
  · cases h
  · cases h
  · split at h
    · cases h
    · split at h
      · cases h
        exact ⟨rfl, _, rfl⟩
      · cases h
    · split at h
      · cases h
      · cases h
        exact ⟨rfl, _, rfl⟩

theorem solveLoop_compose (G : Geom) :
    ∀ (k : Nat) (s s1 : SolverState),
      solveLoop G k s = (SolveRes.exhausted, s1) →
      ∀ m, solveLoop G (k + m) s = solveLoop G m s1 := by
  intro k
  induction k with
  | zero =>
    intro s s1 h m
    have hs : (SolveRes.exhausted, s) = (SolveRes.exhausted, s1) := h
    cases hs
    rw [Nat.zero_add]
  | succ k ih =>
    intro s s1 h m
    rw [show solveLoop G (k + 1) s = (match solveStep G s with
        | Sum.inl r => r | Sum.inr s2 => solveLoop G k s2) from rfl] at h
    rw [Nat.add_right_comm]
    rw [show solveLoop G (k + m + 1) s = (match solveStep G s with
        | Sum.inl r => r | Sum.inr s2 => solveLoop G (k + m) s2) from rfl]
    cases hstep : solveStep G s with
    | inl r =>
      rw [hstep] at h
      dsimp only at h
      have hr1 : r.1 = SolveRes.exhausted := by rw [h]
      exact absurd hr1 (solveStep_inl_shape G s r hstep)
    | inr s2 =>
      rw [hstep] at h
      dsimp only at h
      exact ih s2 s1 h m

theorem solveLoop_stable (G : Geom) :
    ∀ (k : Nat) (s : SolverState) (r : SolveRes × SolverState),
      solveLoop G k s = r → r.1 ≠ SolveRes.exhausted →
      ∀ d, solveLoop G (k + d) s = r := by
  intro k
  induction k with
  | zero =>
    intro s r h hr d
    have hs : r = (SolveRes.exhausted, s) := h.symm
    rw [hs] at hr
    exact absurd rfl hr
  | succ k ih =>
    intro s r h hr d
    rw [show solveLoop G (k + 1) s = (match solveStep G s with
        | Sum.inl r0 => r0 | Sum.inr s2 => solveLoop G k s2) from rfl] at h
    rw [Nat.add_right_comm]
    rw [show solveLoop G (k + d + 1) s = (match solveStep G s with
        | Sum.inl r0 => r0 | Sum.inr s2 => solveLoop G (k + d) s2) from rfl]
    cases hstep : solveStep G s with
    | inl r0 =>
      rw [hstep] at h
      dsimp only at h ⊢
      exact h
    | inr s2 =>
      rw [hstep] at h
      dsimp only at h ⊢
      exact ih s2 r h hr d

theorem solveLoop_exhausted_state (G : Geom) :
    ∀ (k : Nat) (s s1 : SolverState),
      solveLoop G k s = (SolveRes.exhausted, s1) →
      s1.won = s.won ∧ ∀ fs, s.stack = some fs → ∃ fs1, s1.stack = some fs1 := by
  intro k
  induction k with
  | zero =>
    intro s s1 h
    have hs : (SolveRes.exhausted, s) = (SolveRes.exhausted, s1) := h
    cases hs
    exact ⟨rfl, fun fs hfs => ⟨fs, hfs⟩⟩
  | succ k ih =>
    intro s s1 h
    rw [show solveLoop G (k + 1) s = (match solveStep G s with
        | Sum.inl r => r | Sum.inr s2 => solveLoop G k s2) from rfl] at h
    cases hstep : solveStep G s with
    | inl r =>
      rw [hstep] at h
      dsimp only at h
      have hr1 : r.1 = SolveRes.exhausted := by rw [h]
      exact absurd hr1 (solveStep_inl_shape G s r hstep)
    | inr s2 =>
      rw [hstep] at h
      dsimp only at h
      obtain ⟨hw2, fs2, hfs2⟩ := solveStep_inr_won_stack G s s2 hstep
      obtain ⟨hw1, hstk1⟩ := ih s2 s1 h
      exact ⟨hw1.trans hw2, fun fs hfs => hstk1 fs2 hfs2⟩

/-- C9.  Step-budget resumption is transparent: on a fresh solver, if a
positive budget of `k` steps ends in exhaustion (`solve` answering `None`),
the paused solver still has its verdict unset and its frame stack in place,
and resuming it with any budget at least as large as the remainder of a
finishing fresh run reproduces that fresh run's verdict, solution and entire
final state exactly. -/
theorem step_budget_resumption (G : Geom) (st : BoardState) (k j : Nat)
    (b : Bool) (hk : 0 < k)
    (hpause : (solveWith G k (mkSolver st)).1 = SolveRes.exhausted)
    (hfresh : (solveWith G j (mkSolver st)).1 = SolveRes.done b) :
    (solveWith G k (mkSolver st)).2.won = none ∧
    (∃ fs, (solveWith G k (mkSolver st)).2.stack = some fs) ∧
    ∀ m, j - k ≤ m →
      solveWith G m ((solveWith G k (mkSolver st)).2)
        = solveWith G j (mkSolver st) := by
  have hp : solveWith G k (mkSolver st)
      = (SolveRes.exhausted, (solveWith G k (mkSolver st)).2) := by
    rw [← hpause]
  have hf : solveWith G j (mkSolver st)
      = (SolveRes.done b, (solveWith G j (mkSolver st)).2) := by
    rw [← hfresh]
  have hpL : solveLoop G k (solveInit G (mkSolver st))
      = (SolveRes.exhausted, (solveWith G k (mkSolver st)).2) := hp
  have hfL : solveLoop G j (solveInit G (mkSolver st))
      = (SolveRes.done b, (solveWith G j (mkSolver st)).2) := hf
  obtain ⟨hwon, hstk⟩ := solveLoop_exhausted_state G k _ _ hpL
  have hwon' : (solveWith G k (mkSolver st)).2.won = none := hwon
  obtain ⟨fs1, hfs1⟩ :=
    hstk [(mkFrame G st (boardBitmap G st)).1] rfl
  have hkj : k ≤ j := by
    by_contra hlt
    push_neg at hlt
    have hst := solveLoop_stable G j _ _ hfL (by simp) (k - j)
    rw [Nat.add_sub_cancel' (Nat.le_of_lt hlt)] at hst
    rw [hst] at hpL
    simp at hpL
  obtain ⟨d, hd⟩ := Nat.le.dest hkj
  have hcomp := solveLoop_compose G k _ _ hpL d
  rw [hd] at hcomp
  have hdS1 : solveLoop G d ((solveWith G k (mkSolver st)).2)
      = (SolveRes.done b, (solveWith G j (mkSolver st)).2) := by
    rw [← hcomp]
    exact hfL
  refine ⟨hwon', ⟨fs1, hfs1⟩, ?_⟩
  intro m hm
  have hjk : j - k = d := by omega
  rw [hjk] at hm
  obtain ⟨d2, hd2⟩ := Nat.le.dest hm
  have hstab := solveLoop_stable G d _ _ hdS1 (by simp) d2
  rw [hd2] at hstab
  have hres : solveWith G m ((solveWith G k (mkSolver st)).2)
      = solveLoop G m ((solveWith G k (mkSolver st)).2) := by
    show (match (solveWith G k (mkSolver st)).2.stack with
          | some _ =>
            solveLoop G m { (solveWith G k (mkSolver st)).2 with won := none }
          | none =>
            solveLoop G m (solveInit G ((solveWith G k (mkSolver st)).2))) = _
    rw [hfs1]
    dsimp only
    rw [← hwon']
  rw [hres, hstab, hf]

set_option maxRecDepth 1000000 in
/-- Witness for C9 on the four-salt board: one step pauses mid-search, two
finish with a win; resuming the paused solver with one more step reproduces
the fresh two-step run exactly. -/
theorem step_budget_resumption_witness :
    0 < 1 ∧
    (solveWith hexBoard 1 (mkSolver saltBoard4)).1 = SolveRes.exhausted ∧
    (solveWith hexBoard 2 (mkSolver saltBoard4)).1 = SolveRes.done true ∧
    ((solveWith hexBoard 1 (mkSolver saltBoard4)).2.won = none ∧
     (∃ fs, (solveWith hexBoard 1 (mkSolver saltBoard4)).2.stack = some fs) ∧
     ∀ m, 2 - 1 ≤ m →
       solveWith hexBoard m ((solveWith hexBoard 1 (mkSolver saltBoard4)).2)
         = solveWith hexBoard 2 (mkSolver saltBoard4)) := by
  have h1 : (solveWith hexBoard 1 (mkSolver saltBoard4)).1
      = SolveRes.exhausted := by decide
  have h2 : (solveWith hexBoard 2 (mkSolver saltBoard4)).1
      = SolveRes.done true := by decide
  exact ⟨Nat.one_pos, h1, h2,
    step_budget_resumption hexBoard saltBoard4 1 2 true Nat.one_pos h1 h2⟩

theorem range_filter_eq_nil (t0 n : Nat) (hn : n ≤ t0) :
    (List.range n).filter (fun u => u == t0) = [] := by
  rw [List.filter_eq_nil_iff]
  intro a ha
  rw [List.mem_range] at ha
  simp only [beq_iff_eq]
  omega

theorem range_filter_eq_single (t0 : Nat) :
    ∀ n, t0 < n → (List.range n).filter (fun u => u == t0) = [t0] := by
  intro n
  induction n with
  | zero => intro h; cases h
  | succ n ih =>
    intro h
    rw [List.range_succ, List.filter_append]
    by_cases ht : t0 < n
    · rw [ih ht]
      simp only [List.filter_cons, List.filter_nil, beq_iff_eq]
      rw [if_neg (by omega)]
      rfl
    · have ht0 : t0 = n := by omega
      subst ht0
      rw [range_filter_eq_nil t0 t0 le_rfl]
      simp only [List.filter_cons, List.filter_nil, beq_self_eq_true]
      rfl

/-- On a board whose only existing tile is `t0` (which carries an element),
`t0` is the one tile satisfying the legality rule: all six of its neighbor
slots are gaps, while every other tile fails the existence test. -/
theorem specLegal_lone (G : Geom) (st : BoardState) (t0 : Nat) (hWF : G.WF)
    (ht0 : t0 < G.n) (hElem : (st.tiles t0).element = some "mors")
    (hOnly : ∀ u, u < G.n → ((st.tiles u).exists_ = true ↔ u = t0)) :
    ∀ u, u < G.n → (specLegal G st u = true ↔ u = t0) := by
  intro u hu
  constructor
  · intro hsp
    unfold specLegal at hsp
    rw [Bool.and_eq_true, Bool.and_eq_true] at hsp
    exact (hOnly u hu).mp hsp.1.1
  · rintro rfl
    unfold specLegal
    rw [(hOnly u hu).mpr rfl, hElem]
    have hnb : ∀ r ∈ G.nbrs u, (!nbExists st r) = true := by
      intro r hr
      cases r with
      | none => rfl
      | some j =>
        obtain ⟨hj, hjt, -⟩ := (hWF u hu).2 j hr
        have hex : (st.tiles j).exists_ = false := by
          cases hx : (st.tiles j).exists_
          · rfl
          · exact absurd ((hOnly j hj).mp hx) hjt
        simp [nbExists, hex]
    obtain ⟨r0, r1, r2, r3, r4, r5, hr⟩ := exists_six (hWF u hu).1
    have hg : gaps G st u = [true, true, true, true, true, true] := by
      unfold gaps
      rw [hr]
      simp only [List.map_cons, List.map_nil]
      rw [hnb r0 (by rw [hr]; simp), hnb r1 (by rw [hr]; simp),
        hnb r2 (by rw [hr]; simp), hnb r3 (by rw [hr]; simp),
        hnb r4 (by rw [hr]; simp), hnb r5 (by rw [hr]; simp)]
    rw [hg]
    decide

/-- A stack whose sole frame has no move in effect and no moves left makes
`Solver.solve` record the one-empty-move solution, pop the frame, and
declare a loss. -/
theorem solveStep_deadRoot (G : Geom) (s : SolverState) (bm : Nat)
    (hstk : s.stack = some [{ move := [], moves := [], bitmap := bm }])
    (hsol : s.solution = []) :
    solveStep G s = Sum.inl (SolveRes.done false,
      { s with iterations := s.iterations + 1,
               solution := [[]], stack := some [], won := some false }) := by
  unfold solveStep
  rw [hstk]
  dsimp only
  rw [show frameRun G s.bitmaps { move := [], moves := [], bitmap := bm }
      s.board s.bitmapHits
      = (Except.ok none, { move := [], moves := [], bitmap := bm },
         s.board, s.bitmapHits) from rfl]
  dsimp only
  rw [hsol]
  rfl

theorem solveLoop_deadRoot (G : Geom) (s : SolverState) (bm d : Nat)
    (hstk : s.stack = some [{ move := [], moves := [], bitmap := bm }])
    (hsol : s.solution = []) :
    solveLoop G (d + 1) s = (SolveRes.done false,
      { s with iterations := s.iterations + 1,
               solution := [[]], stack := some [], won := some false }) := by
  rw [show solveLoop G (d + 1) s = (match solveStep G s with
      | Sum.inl r => r | Sum.inr s1 => solveLoop G d s1) from rfl,
    solveStep_deadRoot G s bm hstk hsol]

/-- C8.  A board whose only existing tile holds `mors` (with no `vitae`
anywhere): `Solver.valid_moves` answers the empty list, and `Solver.solve`
with any positive budget answers Lost (`False`) with a recorded solution
holding a single empty move — no tiles to remove. -/
theorem lone_mors_loses (G : Geom) (st : BoardState) (t0 : Nat) (hWF : G.WF)
    (hC : cacheOk G st) (hB : catInRange G st) (ht0 : t0 < G.n)
    (hElem : (st.tiles t0).element = some "mors")
    (hOnly : ∀ u, u < G.n → ((st.tiles u).exists_ = true ↔ u = t0))
    (hNoVitae : ∀ u, u < G.n → (st.tiles u).element ≠ some "vitae") :
    (validMovesM G st).1 = [] ∧
    ∀ fuel, 1 ≤ fuel →
      (solveWith G fuel (mkSolver st)).1 = SolveRes.done false ∧
      (solveWith G fuel (mkSolver st)).2.solution = [[]] ∧
      (solveWith G fuel (mkSolver st)).2.solution.flatten = ([] : List Nat) := by
  have hvm : (validMovesM G st).1 = [] := by
    obtain ⟨hlt_eq, hobs1, hC1⟩ :=
      legalFilter_spec G hWF (List.range G.n) st (fun t ht => List.mem_range.mp ht) hC
    unfold validMovesM
    rw [show legalTilesM G st = legalFilter G (List.range G.n) st from rfl]
    rcases hLT : legalFilter G (List.range G.n) st with ⟨lt, st1⟩
    dsimp only
    rw [hLT] at hlt_eq hobs1 hC1
    dsimp only at hlt_eq hobs1 hC1
    have hlt : lt = [t0] := by
      rw [hlt_eq]
      have hcong : ∀ u ∈ List.range G.n, specLegal G st u = (u == t0) := by
        intro u hu
        have hiff := specLegal_lone G st t0 hWF ht0 hElem hOnly u (List.mem_range.mp hu)
        by_cases he : u = t0
        · subst he
          simp only [beq_self_eq_true]
          exact hiff.mpr rfl
        · have hne : specLegal G st u ≠ true := fun hsp => he (hiff.mp hsp)
          rw [Bool.eq_false_iff.mpr hne]
          symm
          rw [beq_eq_false_iff_ne]
          exact he
      rw [List.filter_congr hcong, range_filter_eq_single t0 G.n ht0]
    subst hlt
    rw [if_neg (show ¬(([t0] : List Nat).isEmpty = true) by simp)]
    rw [if_pos (show ([t0] : List Nat).length = 1 from rfl)]
    have hel1 : (st1.tiles (([t0] : List Nat).headD 0)).element = some "mors" := by
      show (st1.tiles t0).element = some "mors"
      rw [hobs1.1 t0, hElem]
    have hcond : ((st1.tiles (([t0] : List Nat).headD 0)).element == some "gold"
        && !catNonempty st1 "silver") = false := by
      rw [hel1]
      rw [show ((some "mors" : Option String) == some "gold") = false from by decide]
      rw [Bool.false_and]
    rw [if_neg (by rw [hcond]; exact Bool.false_ne_true)]
  refine ⟨hvm, ?_⟩
  intro fuel hfuel
  obtain ⟨d, hd⟩ := Nat.le.dest hfuel
  have hroot : (mkFrame G st (boardBitmap G st)).1
      = { move := [], moves := [], bitmap := boardBitmap G st } := by
    show ({ move := [], moves := (validMovesM G st).1,
            bitmap := boardBitmap G st } : Frame) = _
    rw [hvm]
  have hstk : (solveInit G (mkSolver st)).stack
      = some [{ move := [], moves := [], bitmap := boardBitmap G st }] := by
    show some [(mkFrame G st (boardBitmap G st)).1] = _
    rw [hroot]
  have hsw : solveWith G fuel (mkSolver st)
      = solveLoop G fuel (solveInit G (mkSolver st)) := rfl
  have hloop := solveLoop_deadRoot G (solveInit G (mkSolver st))
    (boardBitmap G st) d hstk rfl
  rw [Nat.add_comm 1 d] at hd
  rw [hsw, ← hd, hloop]
  exact ⟨rfl, rfl, rfl⟩

set_option maxRecDepth 100000 in
/-- Witness for C8 on the board whose lone tile holds `mors`. -/
theorem lone_mors_loses_witness :
    (validMovesM hexBoard morsBoard).1 = [] ∧
    ((solveWith hexBoard 1 (mkSolver morsBoard)).1 = SolveRes.done false ∧
     (solveWith hexBoard 1 (mkSolver morsBoard)).2.solution = [[]] ∧
     (solveWith hexBoard 1 (mkSolver morsBoard)).2.solution.flatten
       = ([] : List Nat)) := by
  obtain ⟨h1, h2⟩ := lone_mors_loses hexBoard morsBoard 0 hexBoard_wf
    (cacheOk_of_cacheOkB _ _ (by decide)) (catInRange_of_catInRangeB _ _ (by decide))
    (by decide) (by decide) (by decide) (by decide)
  exact ⟨h1, h2 1 le_rfl⟩

theorem setExists_fst_none (G : Geom) (st : BoardState) (t : Nat) (v : Bool)
    (h : (st.tiles t).element ≠ none) : (setExists G st t v).1 = none := by
  have hB : (v && ((st.tiles t).element == none)) = false := by
    cases hel : (st.tiles t).element with
    | none => exact absurd hel h
    | some m => simp [hel]
  unfold setExists
  split
  · rfl
  · simp [hB]

theorem setExists_pair_none (G : Geom) (st : BoardState) (t : Nat) (v : Bool)
    (h : (st.tiles t).element ≠ none) :
    setExists G st t v = (none, (setExists G st t v).2) := by
  rw [← setExists_fst_none G st t v h]

theorem setExists_snd_or (G : Geom) (st : BoardState) (t : Nat) (v : Bool) :
    (setExists G st t v).1 = none ∨ (setExists G st t v).2 = st := by
  unfold setExists
  split
  · exact Or.inl rfl
  · split
    · exact Or.inr rfl
    · exact Or.inl rfl

theorem catInRange_of_eq_catalog (G : Geom) {st st' : BoardState}
    (h : st'.catalog = st.catalog) (hB : catInRange G st) : catInRange G st' := by
  intro e s hf
  rw [h] at hf
  exact hB e s hf

theorem catInRange_catAddTile (G : Geom) (st : BoardState) (m : String)
    (t : Nat) (ht : t < G.n) (hB : catInRange G st) {st' : BoardState}
    (h : st'.catalog = catAddTile st.catalog m t) : catInRange G st' := by
  intro e s hf
  rw [h, catFind_catAddTile] at hf
  by_cases he : e = m
  · rw [if_pos he] at hf
    cases hf
    intro u hu
    rcases Finset.mem_insert.mp hu with rfl | hu
    · exact ht
    · cases hfm : catFind st.catalog m with
      | none => rw [hfm] at hu; simp at hu
      | some s0 =>
        rw [hfm] at hu
        exact hB m s0 hfm u (by simpa using hu)
  · rw [if_neg he] at hf
    exact hB e s hf

theorem catInRange_catDiscardIfKey (G : Geom) (st : BoardState) (m : String)
    (t : Nat) (hB : catInRange G st) {st' : BoardState}
    (h : st'.catalog = catDiscardIfKey st.catalog m t) : catInRange G st' := by
  intro e s hf
  rw [h, catFind_catDiscardIfKey] at hf
  by_cases he : e = m
  · rw [if_pos he] at hf
    cases hfm : catFind st.catalog m with
    | none => rw [hfm] at hf; cases hf
    | some s0 =>
      rw [hfm] at hf
      cases hf
      intro u hu
      exact hB m s0 hfm u (Finset.mem_of_mem_erase hu)
  · rw [if_neg he] at hf
    exact hB e s hf

theorem setExists_catInRange (G : Geom) (st : BoardState) (t : Nat) (v : Bool)
    (ht : t < G.n) (hB : catInRange G st) :
    catInRange G (setExists G st t v).2 := by
  by_cases hch : v = (st.tiles t).exists_
  · rw [setExists_noop G st t v hch]
    exact hB
  · rcases setExists_snd_or G st t v with hfst | hsnd
    · have hpair : setExists G st t v = (none, (setExists G st t v).2) := by
        rw [← hfst]
      cases helt : (st.tiles t).element with
      | none =>
        have hcat := setExists_ok_catalog_none G st t v _ hpair hch
          (by rw [helt]; rfl)
        exact catInRange_of_eq_catalog G hcat hB
      | some m =>
        by_cases hm : m = ""
        · subst hm
          have hcat := setExists_ok_catalog_none G st t v _ hpair hch
            (by rw [helt]; rfl)
          exact catInRange_of_eq_catalog G hcat hB
        · have hcat := setExists_ok_catalog_some G st t v _ m hpair hch helt hm
          cases v
          · exact catInRange_catDiscardIfKey G st m t hB hcat
          · exact catInRange_catAddTile G st m t ht hB hcat
    · rw [hsnd]
      exact hB

/-- `SolverFrame._execute` on element-bearing on-board tiles never raises,
keeps every tile's element, and preserves the board invariants. -/
theorem execTiles_ok (G : Geom) (hWF : G.WF) (v : Bool) :
    ∀ (l : List Nat) (st : BoardState),
      (∀ t ∈ l, (st.tiles t).element ≠ none ∧ t < G.n) →
      noEmptyElem G st → cacheOk G st → catInRange G st →
      (execTiles G v l st).1 = none ∧
      (∀ u, ((execTiles G v l st).2.tiles u).element = (st.tiles u).element) ∧
      noEmptyElem G (execTiles G v l st).2 ∧
      cacheOk G (execTiles G v l st).2 ∧
      catInRange G (execTiles G v l st).2 := by
  intro l
  induction l with
  | nil => exact fun st _ hNE hC hB => ⟨rfl, fun u => rfl, hNE, hC, hB⟩
  | cons t ts ih =>
    intro st hl hNE hC hB
    obtain ⟨helt, hlt⟩ := hl t (List.mem_cons_self _ _)
    have hpair := setExists_pair_none G st t v helt
    have hNE1 := setExists_noEmptyElem G hNE hpair
    have hC1 := setExists_cacheOk G t v hWF hNE hC hpair
    have hB1 := setExists_catInRange G st t v hlt hB
    have helems := setExists_ok_element G st t v _ hpair
    have hstep : execTiles G v (t :: ts) st
        = execTiles G v ts (setExists G st t v).2 := by
      rw [show execTiles G v (t :: ts) st
          = (match setExists G st t v with
             | (some e, st1) => (some e, st1)
             | (none, st1) => execTiles G v ts st1) from rfl]
      rw [hpair]
    obtain ⟨r1, r2, r3, r4, r5⟩ := ih ((setExists G st t v).2)
      (fun u hu => ⟨by rw [helems u]; exact (hl u (List.mem_cons_of_mem _ hu)).1,
                    (hl u (List.mem_cons_of_mem _ hu)).2⟩)
      hNE1 hC1 hB1
    rw [hstep]
    exact ⟨r1, fun u => (r2 u).trans (helems u), r3, r4, r5⟩

theorem lor_lt_two_pow {x y n : Nat} (hx : x < 2 ^ n) (hy : y < 2 ^ n) :
    x ||| y < 2 ^ n :=
  Nat.bitwise_lt hx hy

theorem tileBitmap_lt (n : Nat) :
    ∀ (l : List Nat) (acc : Nat), (∀ t ∈ l, t < n) → acc < 2 ^ n →
      l.foldl (fun a t => a ||| 2 ^ t) acc < 2 ^ n := by
  intro l
  induction l with
  | nil => exact fun acc _ h => h
  | cons t ts ih =>
    intro acc hl hacc
    rw [List.foldl_cons]
    refine ih _ (fun u hu => hl u (List.mem_cons_of_mem _ hu)) ?_
    exact lor_lt_two_pow hacc
      (Nat.pow_lt_pow_right (by omega) (hl t (List.mem_cons_self _ _)))

theorem boardBitmap_lt (G : Geom) (st : BoardState) :
    boardBitmap G st < 2 ^ G.n := by
  unfold boardBitmap tileBitmap
  exact tileBitmap_lt G.n _ 0
    (fun t ht => List.mem_range.mp (List.mem_filter.mp ht).1)
    (Nat.two_pow_pos G.n)

theorem maskClear_le (a b : Nat) : maskClear a b ≤ a := Nat.sub_le _ _

/-- The move-scanning loop of `SolverFrame.run` never raises (its executes
remove element-bearing on-board tiles), preserves the board invariants and
elements, answers moves drawn from its input, and a returned bitmap is the
cleared frame bitmap of the chosen move and is unvisited. -/
theorem runScan_ok (G : Geom) (hWF : G.WF) (bitmaps : Finset Nat) (frB : Nat) :
    ∀ (ms : List (List Nat)) (st : BoardState) (hits : Nat)
      (res : Except String (Option Nat)) (mv : List Nat)
      (rest : List (List Nat)) (st2 : BoardState) (hits2 : Nat),
      (∀ m ∈ ms, ∀ t ∈ m, (st.tiles t).element ≠ none ∧ t < G.n) →
      noEmptyElem G st → cacheOk G st → catInRange G st →
      runScan G bitmaps frB ms st hits = (res, mv, rest, st2, hits2) →
      (∀ u, (st2.tiles u).element = (st.tiles u).element) ∧
      noEmptyElem G st2 ∧ cacheOk G st2 ∧ catInRange G st2 ∧
      (∀ m ∈ rest, m ∈ ms) ∧
      ((res = Except.ok none ∧ mv = [] ∧ st2 = st) ∨
       (∃ bm, res = Except.ok (some bm) ∧ bm = maskClear frB (tileBitmap mv) ∧
         bm ∉ bitmaps ∧ mv ∈ ms)) := by
  intro ms
  induction ms with
  | nil =>
    intro st hits res mv rest st2 hits2 hms hNE hC hB h
    cases h
    refine ⟨fun u => rfl, hNE, hC, hB, fun m hm => absurd hm (List.not_mem_nil m), ?_⟩
    exact Or.inl ⟨rfl, rfl, rfl⟩
  | cons mv0 ms' ih =>
    intro st hits res mv rest st2 hits2 hms hNE hC hB h
    rw [show runScan G bitmaps frB (mv0 :: ms') st hits
        = (if maskClear frB (tileBitmap mv0) ∈ bitmaps then
             runScan G bitmaps frB ms' st (hits + 1)
           else
             match execTiles G false mv0 st with
             | (some e, st1) => (Except.error e, mv0, ms', st1, hits)
             | (none, st1) =>
               (Except.ok (some (maskClear frB (tileBitmap mv0))), mv0, ms',
                st1, hits)) from rfl] at h
    by_cases hmem : maskClear frB (tileBitmap mv0) ∈ bitmaps
    · rw [if_pos hmem] at h
      obtain ⟨r1, r2, r3, r4, r5, r6⟩ := ih st (hits + 1) res mv rest st2 hits2
        (fun m hm => hms m (List.mem_cons_of_mem _ hm)) hNE hC hB h
      refine ⟨r1, r2, r3, r4, fun m hm => List.mem_cons_of_mem _ (r5 m hm), ?_⟩
      rcases r6 with h6 | ⟨bm, h61, h62, h63, h64⟩
      · exact Or.inl h6
      · exact Or.inr ⟨bm, h61, h62, h63, List.mem_cons_of_mem _ h64⟩
    · rw [if_neg hmem] at h
      obtain ⟨e1, e2, e3, e4, e5⟩ := execTiles_ok G hWF false mv0 st
        (hms mv0 (List.mem_cons_self _ _)) hNE hC hB
      have hpair : execTiles G false mv0 st
          = (none, (execTiles G false mv0 st).2) := by rw [← e1]
      rw [hpair] at h
      dsimp only at h
      cases h
      refine ⟨e2, e3, e4, e5, fun m hm => List.mem_cons_of_mem _ hm, ?_⟩
      exact Or.inr ⟨_, rfl, rfl, hmem, List.mem_cons_self _ _⟩

/-- `SolverFrame.run` under the loop invariant: no raise, the board keeps
its elements and invariants, the frame keeps its bitmap and draws its new
move and moves from the old move list, and a returned bitmap is unvisited
and bounded by the frame's. -/
theorem frameRun_ok (G : Geom) (hWF : G.WF) (bitmaps : Finset Nat) (fr : Frame)
    (st : BoardState) (hits : Nat) (res : Except String (Option Nat))
    (fr2 : Frame) (st2 : BoardState) (hits2 : Nat)
    (hGmv : ∀ t ∈ fr.move, (st.tiles t).element ≠ none ∧ t < G.n)
    (hGms : ∀ m ∈ fr.moves, ∀ t ∈ m, (st.tiles t).element ≠ none ∧ t < G.n)
    (hNE : noEmptyElem G st) (hC : cacheOk G st) (hB : catInRange G st)
    (h : frameRun G bitmaps fr st hits = (res, fr2, st2, hits2)) :
    (∀ u, (st2.tiles u).element = (st.tiles u).element) ∧
    noEmptyElem G st2 ∧ cacheOk G st2 ∧ catInRange G st2 ∧
    fr2.bitmap = fr.bitmap ∧
    (∀ t ∈ fr2.move, ∃ m ∈ fr.moves, t ∈ m) ∧
    (∀ m ∈ fr2.moves, m ∈ fr.moves) ∧
    (res = Except.ok none ∨
     ∃ bm, res = Except.ok (some bm) ∧ bm ∉ bitmaps ∧ bm ≤ fr.bitmap) := by
  unfold frameRun at h
  rcases hU : (if fr.move.isEmpty then (none, st) else execTiles G true fr.move st)
    with ⟨ue, st1⟩
  have hfacts : ue = none ∧ (∀ u, (st1.tiles u).element = (st.tiles u).element) ∧
      noEmptyElem G st1 ∧ cacheOk G st1 ∧ catInRange G st1 := by
    by_cases hmv : fr.move.isEmpty
    · rw [if_pos hmv] at hU
      cases hU
      exact ⟨rfl, fun u => rfl, hNE, hC, hB⟩
    · rw [if_neg hmv] at hU
      obtain ⟨e1, e2, e3, e4, e5⟩ := execTiles_ok G hWF true fr.move st hGmv hNE hC hB
      rw [hU] at e1 e2 e3 e4 e5
      exact ⟨e1, e2, e3, e4, e5⟩
  obtain ⟨rfl, hUelem, hUNE, hUC, hUB⟩ := hfacts
  rw [hU] at h
  dsimp only at h
  rcases hRS : runScan G bitmaps fr.bitmap fr.moves.reverse st1 hits
    with ⟨resS, mv, restRev, st2S, hits2S⟩
  rw [hRS] at h
  dsimp only at h
  cases h
  obtain ⟨r1, r2, r3, r4, r5, r6⟩ := runScan_ok G hWF bitmaps fr.bitmap
    fr.moves.reverse st1 hits res mv restRev st2 hits2
    (fun m hm t htm => by
      obtain ⟨h1, h2⟩ := hGms m (List.mem_reverse.mp hm) t htm
      exact ⟨by rw [hUelem t]; exact h1, h2⟩)
    hUNE hUC hUB hRS
  dsimp only
  refine ⟨fun u => (r1 u).trans (hUelem u), r2, r3, r4, rfl, ?_, ?_, ?_⟩
  · intro t htm
    rcases r6 with ⟨-, hmv0, -⟩ | ⟨bm, -, -, -, hmemv⟩
    · rw [hmv0] at htm
      cases htm
    · exact ⟨mv, List.mem_reverse.mp hmemv, htm⟩
  · intro m hm
    exact List.mem_reverse.mp (r5 m (List.mem_reverse.mp hm))
  · rcases r6 with ⟨hres, -, -⟩ | ⟨bm, hres, hbmeq, hnm, -⟩
    · exact Or.inl hres
    · refine Or.inr ⟨bm, hres, hnm, ?_⟩
      rw [hbmeq]
      exact maskClear_le _ _

/-- Tiles of a stored move: element-bearing and on the board. -/
def GoodTiles (G : Geom) (st : BoardState) (m : List Nat) : Prop :=
  ∀ t ∈ m, (st.tiles t).element ≠ none ∧ t < G.n

theorem GoodTiles_congr (G : Geom) {st st' : BoardState}
    (h : ∀ u, (st'.tiles u).element = (st.tiles u).element) {m : List Nat}
    (hm : GoodTiles G st m) : GoodTiles G st' m := by
  intro t htm
  obtain ⟨h1, h2⟩ := hm t htm
  exact ⟨by rw [h t]; exact h1, h2⟩

/-- `SolverFrame.__init__` under the invariants: the generated moves hold
element-bearing on-board tiles (they are legal at generation time), and the
board keeps its elements and invariants. -/
theorem mkFrame_ok (G : Geom) (st : BoardState) (bm : Nat) (hWF : G.WF)
    (hNE : noEmptyElem G st) (hC : cacheOk G st) (hB : catInRange G st) :
    (mkFrame G st bm).1.move = [] ∧ (mkFrame G st bm).1.bitmap = bm ∧
    (∀ m ∈ (mkFrame G st bm).1.moves, GoodTiles G (mkFrame G st bm).2 m) ∧
    (∀ u, ((mkFrame G st bm).2.tiles u).element = (st.tiles u).element) ∧
    noEmptyElem G (mkFrame G st bm).2 ∧ cacheOk G (mkFrame G st bm).2 ∧
    catInRange G (mkFrame G st bm).2 := by
  obtain ⟨hmoves, hobs, hC2⟩ := validMovesM_good G st hWF hC hB
  refine ⟨rfl, rfl, ?_, hobs.1, ?_, hC2, catInRange_of_Obs G hobs hB⟩
  · intro m hm t htm
    obtain ⟨hsp, hlt⟩ := hmoves m hm t htm
    have hel : (st.tiles t).element ≠ none := by
      unfold specLegal at hsp
      rw [Bool.and_eq_true, Bool.and_eq_true] at hsp
      have hne := hsp.1.2
      intro hcontra
      rw [hcontra] at hne
      simp at hne
    refine ⟨?_, hlt⟩
    show ((validMovesM G st).2.tiles t).element ≠ none
    rw [hobs.1 t]
    exact hel
  · intro u hu
    show ((validMovesM G st).2.tiles u).element ≠ some ""
    rw [hobs.1 u]
    exact hNE u hu

/-- The solver-loop invariant: a coherent board, a nonempty frame stack
whose moves hold element-bearing on-board tiles and whose bitmaps fit the
board, and a visited set inside the board's bitmap space. -/
def SolveInv (G : Geom) (s : SolverState) : Prop :=
  noEmptyElem G s.board ∧ cacheOk G s.board ∧ catInRange G s.board ∧
  s.bitmaps ⊆ Finset.range (2 ^ G.n) ∧
  ∃ fs, s.stack = some fs ∧ fs ≠ [] ∧
    ∀ fr ∈ fs, fr.bitmap < 2 ^ G.n ∧ GoodTiles G s.board fr.move ∧
      ∀ m ∈ fr.moves, GoodTiles G s.board m

/-- Termination measure: each unvisited bitmap weighs two, each stack frame
one; a push trades a fresh bitmap for a frame, a pop shrinks the stack. -/
def solveMeasure (G : Geom) (s : SolverState) : Nat :=
  2 * (2 ^ G.n - s.bitmaps.card) + (s.stack.getD []).length

/-- Under the invariant, one solver iteration either finishes with a
verdict or continues in a state that still satisfies the invariant with a
strictly smaller measure. -/
theorem solveStep_progress (G : Geom) (hWF : G.WF) (s : SolverState)
    (hInv : SolveInv G s) :
    (∃ b s1, solveStep G s = Sum.inl (SolveRes.done b, s1)) ∨
    (∃ s1, solveStep G s = Sum.inr s1 ∧ SolveInv G s1 ∧
      solveMeasure G s1 < solveMeasure G s) := by
  obtain ⟨hNE, hC, hB, hsub, fs, hstk, hne, hfr⟩ := hInv
  rcases fs with _ | ⟨top, rest⟩
  · exact absurd rfl hne
  obtain ⟨htopbm, htopmv, htopms⟩ := hfr top (List.mem_cons_self _ _)
  rcases hFR : frameRun G s.bitmaps top s.board s.bitmapHits
    with ⟨res, top1, board1, hits1⟩
  obtain ⟨f1, f2, f3, f4, f5, f6, f7, f8⟩ := frameRun_ok G hWF s.bitmaps top
    s.board s.bitmapHits res top1 board1 hits1
    (fun t ht => htopmv t ht) (fun m hm => htopms m hm) hNE hC hB hFR
  have htop1mv : GoodTiles G board1 top1.move := by
    intro t ht
    obtain ⟨m, hm, htm⟩ := f6 t ht
    exact GoodTiles_congr G f1 (htopms m hm) t htm
  have htop1ms : ∀ m ∈ top1.moves, GoodTiles G board1 m :=
    fun m hm => GoodTiles_congr G f1 (htopms m (f7 m hm))
  have hrest : ∀ fr ∈ rest, fr.bitmap < 2 ^ G.n ∧ GoodTiles G board1 fr.move ∧
      ∀ m ∈ fr.moves, GoodTiles G board1 m := by
    intro fr hm
    obtain ⟨g1, g2, g3⟩ := hfr fr (List.mem_cons_of_mem _ hm)
    exact ⟨g1, GoodTiles_congr G f1 g2, fun m hmm => GoodTiles_congr G f1 (g3 m hmm)⟩
  rcases f8 with hres | ⟨bm, hres, hbm_nm, hbm_le⟩
  · -- the frame is exhausted: backtrack
    subst hres
    rcases hrestc : rest with _ | ⟨fr2top, rest'⟩ <;> subst hrestc
    · -- stack emptied: Lost
      refine Or.inl ⟨false,
        { s with iterations := s.iterations + 1, board := board1,
                 bitmapHits := hits1,
                 solution := if s.solution.length < ([] : List Frame).length + 1
                             then saveSolution (top1 :: ([] : List Frame))
                             else s.solution,
                 stack := some ([] : List Frame), won := some false }, ?_⟩
      unfold solveStep
      rw [hstk]
      dsimp only
      rw [hFR]
      rfl
    · -- pop and continue
      refine Or.inr
        ⟨{ s with iterations := s.iterations + 1, board := board1,
                  bitmapHits := hits1,
                  solution := if s.solution.length < (fr2top :: rest').length + 1
                              then saveSolution (top1 :: fr2top :: rest')
                              else s.solution,
                  stack := some (fr2top :: rest') }, ?_, ?_, ?_⟩
      · unfold solveStep
        rw [hstk]
        dsimp only
        rw [hFR]
        rfl
      · refine ⟨f2, f3, f4, hsub, fr2top :: rest', rfl, by simp, ?_⟩
        intro fr hm
        exact hrest fr hm
      · unfold solveMeasure
        rw [hstk]
        simp only [Option.getD_some, List.length_cons]
        omega
  · -- a move was made
    subst hres
    by_cases hbm0 : bm = 0
    · -- board emptied: Won
      refine Or.inl ⟨true,
        { s with iterations := s.iterations + 1, board := board1,
                 bitmapHits := hits1, stack := some (top1 :: rest),
                 solution := saveSolution (top1 :: rest), won := some true }, ?_⟩
      unfold solveStep
      rw [hstk]
      dsimp only
      rw [hFR]
      dsimp only
      rw [if_neg (by simp [hbm0])]
    · -- push a new frame
      have hbmlt : bm < 2 ^ G.n := Nat.lt_of_le_of_lt hbm_le htopbm
      obtain ⟨n1, n2, n3, n4, n5, n6, n7⟩ := mkFrame_ok G board1 bm hWF f2 f3 f4
      have hb2elems : ∀ u, ((mkFrame G board1 bm).2.tiles u).element
          = (board1.tiles u).element := n4
      refine Or.inr
        ⟨{ s with iterations := s.iterations + 1,
                  board := (mkFrame G board1 bm).2, bitmapHits := hits1,
                  bitmaps := insert bm s.bitmaps,
                  stack := some ((mkFrame G board1 bm).1 :: top1 :: rest) },
         ?_, ?_, ?_⟩
      · unfold solveStep
        rw [hstk]
        dsimp only
        rw [hFR]
        dsimp only
        rw [if_pos hbm0]
      · refine ⟨n5, n6, n7, ?_,
          (mkFrame G board1 bm).1 :: top1 :: rest, rfl, by simp, ?_⟩
        · intro x hx
          rcases Finset.mem_insert.mp hx with rfl | hx
          · exact Finset.mem_range.mpr hbmlt
          · exact hsub hx
        · intro fr hm
          rcases List.mem_cons.mp hm with rfl | hm
          · refine ⟨by rw [n2]; exact hbmlt, ?_, n3⟩
            rw [n1]
            intro t ht
            cases ht
          · rcases List.mem_cons.mp hm with rfl | hm
            · exact ⟨f5 ▸ htopbm, GoodTiles_congr G hb2elems htop1mv,
                fun m hmm => GoodTiles_congr G hb2elems (htop1ms m hmm)⟩
            · obtain ⟨g1, g2, g3⟩ := hrest fr hm
              exact ⟨g1, GoodTiles_congr G hb2elems g2,
                fun m hmm => GoodTiles_congr G hb2elems (g3 m hmm)⟩
      · have hcard : (insert bm s.bitmaps).card = s.bitmaps.card + 1 :=
          Finset.card_insert_of_not_mem hbm_nm
        have hcard_le : (insert bm s.bitmaps).card ≤ 2 ^ G.n := by
          calc (insert bm s.bitmaps).card
              ≤ (Finset.range (2 ^ G.n)).card := by
                refine Finset.card_le_card ?_
                intro x hx
                rcases Finset.mem_insert.mp hx with rfl | hx
                · exact Finset.mem_range.mpr hbmlt
                · exact hsub hx
            _ = 2 ^ G.n := Finset.card_range _
        unfold solveMeasure
        rw [hstk]
        simp only [Option.getD_some, List.length_cons]
        rw [hcard]
        omega

/-- A fuel budget of the measure itself suffices to reach a verdict. -/
theorem solveLoop_term (G : Geom) (hWF : G.WF) :
    ∀ (μ : Nat) (s : SolverState), SolveInv G s → solveMeasure G s ≤ μ →
      ∃ b, (solveLoop G μ s).1 = SolveRes.done b := by
  intro μ
  induction μ with
  | zero =>
    intro s hInv hm
    exfalso
    obtain ⟨-, -, -, -, fs, hstk, hne, -⟩ := hInv
    rcases fs with _ | ⟨f, fs'⟩
    · exact hne rfl
    · have h1 : 1 ≤ solveMeasure G s := by
        unfold solveMeasure
        rw [hstk]
        simp only [Option.getD_some, List.length_cons]
        omega
      omega
  | succ μ ih =>
    intro s hInv hm
    rcases solveStep_progress G hWF s hInv with ⟨b, s1, hstep⟩ | ⟨s1, hstep, hInv1, hlt⟩
    · refine ⟨b, ?_⟩
      rw [show solveLoop G (μ + 1) s = (match solveStep G s with
          | Sum.inl r => r | Sum.inr s2 => solveLoop G μ s2) from rfl, hstep]
    · obtain ⟨b, hb⟩ := ih s1 hInv1 (by omega)
      refine ⟨b, ?_⟩
      rw [show solveLoop G (μ + 1) s = (match solveStep G s with
          | Sum.inl r => r | Sum.inr s2 => solveLoop G μ s2) from rfl, hstep]
      exact hb

/-- C3.  Termination of `Solver.solve(None)` on any well-formed coherent
board with at most 91 tiles: some finite fuel reaches a `True`/`False`
verdict, and every larger budget gives the identical run — so the unbounded
loop finishes and never cycles, because every pushed frame records a bitmap
newly added to the visited subset of the finite space below `2 ^ n`. -/
theorem solver_terminates (G : Geom) (st : BoardState) (hWF : G.WF)
    (hn : G.n ≤ 91) (hNE : noEmptyElem G st) (hC : cacheOk G st)
    (hB : catInRange G st) :
    ∃ fuel b, (solveWith G fuel (mkSolver st)).1 = SolveRes.done b ∧
      ∀ m, fuel ≤ m →
        solveWith G m (mkSolver st) = solveWith G fuel (mkSolver st) := by
  obtain ⟨m1, m2, m3, m4, m5, m6, m7⟩ :=
    mkFrame_ok G st (boardBitmap G st) hWF hNE hC hB
  have hInv : SolveInv G (solveInit G (mkSolver st)) := by
    refine ⟨m5, m6, m7, ?_, [(mkFrame G st (boardBitmap G st)).1], rfl,
      by simp, ?_⟩
    · intro x hx
      have hx' : x ∈ ({boardBitmap G st} : Finset Nat) := hx
      rw [Finset.mem_singleton] at hx'
      subst hx'
      exact Finset.mem_range.mpr (boardBitmap_lt G st)
    · intro fr hfrm
      rw [List.mem_singleton] at hfrm
      subst hfrm
      refine ⟨by rw [m2]; exact boardBitmap_lt G st, ?_, m3⟩
      rw [m1]
      intro t ht
      cases ht
  obtain ⟨b, hb⟩ := solveLoop_term G hWF
    (solveMeasure G (solveInit G (mkSolver st))) (solveInit G (mkSolver st))
    hInv le_rfl
  refine ⟨solveMeasure G (solveInit G (mkSolver st)), b, hb, ?_⟩
  intro m hm
  obtain ⟨d, hd⟩ := Nat.le.dest hm
  have hpair : solveLoop G (solveMeasure G (solveInit G (mkSolver st)))
      (solveInit G (mkSolver st))
      = (SolveRes.done b,
         (solveLoop G (solveMeasure G (solveInit G (mkSolver st)))
           (solveInit G (mkSolver st))).2) := by
    rw [← hb]
  have hstab := solveLoop_stable G _ _ _ hpair (by simp) d
  rw [hd] at hstab
  show solveLoop G m (solveInit G (mkSolver st))
      = solveLoop G (solveMeasure G (solveInit G (mkSolver st)))
          (solveInit G (mkSolver st))
  rw [hstab, hpair]

/-- Witness for C3 on the radius-6 board holding one fire tile. -/
theorem solver_terminates_witness :
    hexBoard.WF ∧ hexBoard.n ≤ 91 ∧
    (∃ fuel b,
      (solveWith hexBoard fuel (mkSolver fireBoard)).1 = SolveRes.done b ∧
      ∀ m, fuel ≤ m →
        solveWith hexBoard m (mkSolver fireBoard)
          = solveWith hexBoard fuel (mkSolver fireBoard)) :=
  ⟨hexBoard_wf, by decide,
   solver_terminates hexBoard fireBoard hexBoard_wf (by decide)
     (by unfold noEmptyElem; decide) (cacheOk_of_cacheOkB _ _ (by decide))
     (catInRange_of_catInRangeB _ _ (by decide))⟩

end Sigsolve
